import Mathlib

/-!
# gotype: a verification development

A shallow embedding of the typing-test engine of `gotype` (Go sources
`cmd/utils.go`, `cmd/types.go`, `cmd/main.go`) together with theorems about
text reflow, mistake extraction, statistics, the session state machine, the
time budget of a test and the logic loop of `main`.

Conventions of the embedding

* A Go `rune` is a natural number (its code point); `' '` is 32, `'\n'` is 10,
  `'_'` is 95 and the zero rune (an unset position of the typed buffer) is 0.
* A Go `string` handled bytewise (`wordWrapBytes`, `wrapText`) is a list of
  bytes, each a natural number.
* A Go string built by `string(w)` from a rune slice `w` is represented by the
  rune sequence `w` itself.
* Go code that can panic on an index out of range returns `Option`, with
  `none` for the panic.
-/

namespace GoType

/-- A Go rune, as its code point. -/
abbrev Rune := Nat

/-- The rune sequence of a string literal. -/
def runes (s : String) : List Rune := s.toList.map Char.toNat

/-! ## `cmd/types.go`: `mistake` -/

/-- The Go struct `mistake`; both strings are kept as rune sequences. -/
structure mistake where
  Word : List Rune
  Typed : List Rune
deriving DecidableEq, Repr

/-! ## `cmd/utils.go`: `extractMistypedWords` -/

/-- The loop `for i := range text` of `extractMistypedWords`, from index `i`
on: the first list is `text[i:]`, and `w`, `t`, `f`, `mistakes` are the local
variables of the Go function. Reading `typed[i]` beyond the end of `typed`
panics (`none`); a space of the target is handled before `typed[i]` is read. -/
def extractLoop (typed : List Rune) :
    List Rune → Nat → List Rune → List Rune → Bool → List mistake → Option (List mistake)
  | [], _, w, t, f, mistakes => some (if f then mistakes ++ [⟨w, t⟩] else mistakes)
  | x :: rest, i, w, t, f, mistakes =>
    if x = 32 then
      extractLoop typed rest (i + 1) [] [] false (if f then mistakes ++ [⟨w, t⟩] else mistakes)
    else
      match typed[i]? with
      | none => none
      | some y =>
        extractLoop typed rest (i + 1)
          (w ++ [if x = 0 then 95 else x])
          (t ++ [if y = 0 then 95 else y])
          (if x ≠ y then true else f)
          mistakes

/-- The Go function `extractMistypedWords(text, typed)`. -/
def extractMistypedWords (text typed : List Rune) : Option (List mistake) :=
  extractLoop typed text 0 [] [] false []

/-! ### Specification of the mistake list -/

/-- How a rune is shown in a mistake entry: the zero rune as `'_'`. -/
def shown (r : Rune) : Rune := if r = 0 then 95 else r

/-- The mistake list in the words of the specification: pair every target rune
with the typed rune at the same position, cut the pairs at the target's
spaces into words, keep the words with at least one differing position and
report the target runes and the typed runes of each, in order. -/
def specMistakes (text typed : List Rune) : List mistake :=
  (((text.zip typed).splitOnP (fun p => p.1 == 32)).filter
      (fun run => run.any (fun p => p.1 != p.2))).map
    (fun run => ⟨run.map (fun p => shown p.1), run.map (fun p => shown p.2)⟩)

/-! ## `cmd/utils.go`: `wordWrapBytes`, `wordWrap`, `wrapText` -/

/-- The local variables of `wordWrapBytes`: the byte slice `s` (changed in
place), the index `sp` of the most recent space and the count `sz`. -/
structure WrapState where
  s : List Nat
  sp : Nat
  sz : Int
deriving DecidableEq, Repr

/-- One iteration of the loop of `wordWrapBytes`, at index `i`. -/
def wordWrapStep (n : Int) (st : WrapState) (i : Nat) : WrapState :=
  let sz := st.sz + 1
  let s := if st.s[i]? = some 10 then st.s.set i 32 else st.s
  let sp := if s[i]? = some 32 then i else st.sp
  if sz > n then
    { s := if sp ≠ 0 then s.set sp 10 else s, sp := sp, sz := (i : Int) - (sp : Int) }
  else
    { s := s, sp := sp, sz := sz }

/-- The Go function `wordWrapBytes(s, n)`; the result is the slice after the
loop `for i := 0; i < len(s); i++`. -/
def wordWrapBytes (s : List Nat) (n : Int) : List Nat :=
  ((List.range s.length).foldl (wordWrapStep n) { s := s, sp := 0, sz := 0 }).s

/-- The Go function `wordWrap(s, n)`. -/
def wordWrap (s : List Nat) (n : Int) : List Nat := wordWrapBytes s n

/-- The bytes matched by `\s` in a Go regular expression: tab, newline, form
feed, carriage return and space. -/
def isSpaceByte (c : Nat) : Bool := c == 9 || c == 10 || c == 12 || c == 13 || c == 32

/-- The call `regexp.MustCompile("\\s+").ReplaceAllString(s, " ")`: every
maximal run of whitespace bytes becomes one space. The flag tells that the
byte before the list belongs to a run that has already been replaced. (The
whitespace bytes are ASCII, and the UTF-8 decoder of Go reads an ASCII byte as
a rune of its own wherever it stands, so the replacement is the same on bytes
as on runes.) -/
def collapseWs : Bool → List Nat → List Nat
  | _, [] => []
  | inRun, c :: cs =>
    if isSpaceByte c then
      if inRun then collapseWs true cs else 32 :: collapseWs true cs
    else c :: collapseWs false cs

/-- The call `strings.Trim(s, " ")`. -/
def trimSpaces (s : List Nat) : List Nat :=
  (s.dropWhile (fun c => c == 32)).rdropWhile (fun c => c == 32)

/-- The call `strings.Replace(s, "\n", " \n", -1)`. -/
def replaceNewlines : List Nat → List Nat
  | [] => []
  | c :: cs => if c = 10 then 32 :: 10 :: replaceNewlines cs else c :: replaceNewlines cs

/-- The Go function `wrapText(text, width)`; `sw` is the screen width that
`scr.Size()` returns. -/
def wrapText (sw : Int) (text : List Nat) (width : Int) : List Nat :=
  let wsz := if width > sw then sw - 8 else width
  let s := collapseWs false text
  replaceNewlines (wordWrap (trimSpaces s) wsz)

/-! ### Vocabulary of the reflow properties -/

/-- The bytes of a string literal that is ASCII. -/
def bytes (s : String) : List Nat := s.toList.map Char.toNat

/-- The lines of a byte string: the pieces between its newline bytes. -/
def lines (s : List Nat) : List (List Nat) := s.splitOnP (fun c => c == 10)

/-- The words of a byte string: the non-empty pieces between its whitespace
bytes. -/
def fields (s : List Nat) : List (List Nat) :=
  (s.splitOnP isSpaceByte).filter (fun w => !w.isEmpty)

/-- The number of bytes the UTF-8 decoder of Go (`unicode/utf8`) takes for the
rune that starts with byte `c` when `rest` follows: the length of a
well-formed encoding, and 1 for a byte that starts none. -/
def runeWidth (c : Nat) (rest : List Nat) : Nat :=
  let cont (b : Nat) : Bool := 128 ≤ b && b ≤ 191
  let lo : Nat := if c = 224 then 160 else if c = 240 then 144 else 128
  let hi : Nat := if c = 237 then 159 else if c = 244 then 143 else 191
  let size : Nat :=
    if c < 128 then 1
    else if 194 ≤ c ∧ c ≤ 223 then 2
    else if 224 ≤ c ∧ c ≤ 239 then 3
    else if 240 ≤ c ∧ c ≤ 244 then 4
    else 1
  match size, rest with
  | 2, b1 :: _ => if lo ≤ b1 ∧ b1 ≤ hi then 2 else 1
  | 3, b1 :: b2 :: _ => if lo ≤ b1 ∧ b1 ≤ hi ∧ cont b2 then 3 else 1
  | 4, b1 :: b2 :: b3 :: _ => if lo ≤ b1 ∧ b1 ≤ hi ∧ cont b2 ∧ cont b3 then 4 else 1
  | _, _ => 1

/-- Counting loop of `utf8.RuneCountInString`; the first argument bounds the
number of runes still to be counted. -/
def runeCountLoop : Nat → List Nat → Nat
  | 0, _ => 0
  | _, [] => 0
  | k + 1, c :: rest => 1 + runeCountLoop k ((c :: rest).drop (runeWidth c rest))

/-- The number of code points of a byte string, as `utf8.RuneCountInString`
counts them (every byte that is not part of a well-formed encoding counts as
one). A string has at most as many runes as bytes, so the bound is enough. -/
def runeCount (s : List Nat) : Nat := runeCountLoop s.length s

/-! ## `cmd/types.go`: the session state machine `play` -/

/-- The constant `GoTypeComplete`. -/
def GoTypeComplete : Nat := 0
/-- The constant `GoTypeSigInt`. -/
def GoTypeSigInt : Nat := 1
/-- The constant `GoTypeEscape`. -/
def GoTypeEscape : Nat := 2
/-- The constant `GoTypeNext`. -/
def GoTypeNext : Nat := 3
/-- The constant `GoTypePrevious`. -/
def GoTypePrevious : Nat := 4
/-- The constant `GoTypeResize`. -/
def GoTypeResize : Nat := 5

/-- The key codes of `tcell` that `play` tells apart; `KeyOther` is any other
key. -/
inductive Key where
  | KeyBackspace | KeyBackspace2 | KeyCtrlC | KeyEscape | KeyCtrlL
  | KeyRight | KeyLeft | KeyCtrlW | KeyRune | KeyOther
deriving DecidableEq, Repr

/-- The modifier mask `tcell.ModCtrl`. -/
def ModCtrl : Nat := 2
/-- The modifier mask `tcell.ModAlt`. -/
def ModAlt : Nat := 4

/-- What `PollEvent` returns: a resize event, a key event with its key code,
rune and modifier mask, or anything else (the `nil` event that the ticker
posts). -/
inductive Event where
  | EventResize
  | EventKey (key : Key) (rune : Rune) (mods : Nat)
  | Tick
deriving DecidableEq, Repr

/-- One iteration of the event loop as the environment supplies it: the event
polled, and the readings of the clock (in nanoseconds) taken by `redraw` at
the head of the loop (`drawn`), by the first use of the clock while the event
is handled (`now`) and by the second (`later`). -/
structure Input where
  ev : Event
  drawn : Int
  now : Int
  later : Int
deriving DecidableEq, Repr

/-- The fields of `gotype` that `play` consults, and whether `runtime.GOOS` is
`"windows"`. -/
structure Config where
  SkipWord : Bool
  ShowWpm : Bool
  DisableBackspace : Bool
  windows : Bool
deriving DecidableEq, Repr

/-- The variables of `play`: the target `text`, the buffer `typed`, the cursor
`idx`, `startTime` (`none` is the zero time) and the named results. -/
structure PlayState where
  text : List Rune
  typed : List Rune
  idx : Nat
  startTime : Option Int
  nerrs : Nat
  ncorrect : Nat
  rc : Nat
  duration : Int
  mistakes : List mistake
deriving DecidableEq, Repr

/-- The counting loop of `calcStats`, `for i := 0; i < idx; i++`, giving
`(nerrs, ncorrect)`; an index out of range is a panic. -/
def countStats (text typed : List Rune) (idx : Nat) : Option (Nat × Nat) :=
  (List.range idx).foldlM
    (fun (acc : Nat × Nat) (i : Nat) =>
      match text[i]? with
      | none => none
      | some x =>
        if x ≠ 10 then
          match typed[i]? with
          | none => none
          | some y => if x ≠ y then some (acc.1 + 1, acc.2) else some (acc.1, acc.2 + 1)
        else some acc)
    (0, 0)

/-- The duration `time.Since(startTime)` at clock reading `now`; from the
zero time the subtraction saturates at the largest duration. -/
def since (startTime : Option Int) (now : Int) : Int :=
  match startTime with
  | some t0 => now - t0
  | none => 9223372036854775807

/-- The closure `calcStats` run at clock reading `now`. Slicing `text[:idx]`
and `typed[:idx]` beyond the length is a panic. -/
def calcStats (st : PlayState) (now : Int) : Option PlayState :=
  if st.idx ≤ st.text.length ∧ st.idx ≤ st.typed.length then
    match extractMistypedWords (st.text.take st.idx) (st.typed.take st.idx) with
    | none => none
    | some ms =>
      match countStats st.text st.typed st.idx with
      | none => none
      | some (e, c) =>
        some { st with
          nerrs := e, ncorrect := c, mistakes := ms,
          rc := GoTypeComplete, duration := since st.startTime now }
  else none

/-- The closure `redraw` at clock reading `now`, as far as the variables of
`play` go (what it puts on the screen is left out): it reads `typed[i]` at
every non-newline position below the cursor, and with `ShowWpm` and a started
clock it runs `calcStats`. -/
def redraw (cfg : Config) (st : PlayState) (now : Int) : Option PlayState :=
  if (List.range st.text.length).all
      (fun i => st.text[i]? == some 10 || decide (st.idx ≤ i) || decide (i < st.typed.length)) then
    if cfg.ShowWpm ∧ st.startTime ≠ none then calcStats st now else some st
  else none

/-- The assignment `typed[idx] = v`. -/
def setRune (typed : List Rune) (idx : Nat) (v : Rune) : Option (List Rune) :=
  if idx < typed.length then some (typed.set idx v) else none

/-- The loop `for idx > 0 && (text[idx] == ' ' || text[idx] == '\n') { idx-- }`. -/
def backOverBlanks (text : List Rune) : Nat → Option Nat
  | 0 => some 0
  | k + 1 =>
    match text[k + 1]? with
    | none => none
    | some c => if c = 32 ∨ c = 10 then backOverBlanks text k else some (k + 1)

/-- The loop `for idx > 0 && text[idx] != ' ' && text[idx] != '\n' { idx-- }`. -/
def backOverWord (text : List Rune) : Nat → Option Nat
  | 0 => some 0
  | k + 1 =>
    match text[k + 1]? with
    | none => none
    | some c => if c ≠ 32 ∧ c ≠ 10 then backOverWord text k else some (k + 1)

/-- The closure `deleteWord`, on the pair `(typed, idx)`. -/
def deleteWord (text typed : List Rune) (idx : Nat) : Option (List Rune × Nat) :=
  if idx = 0 then some (typed, idx)
  else
    match backOverBlanks text (idx - 1) with
    | none => none
    | some i1 =>
      match backOverWord text i1 with
      | none => none
      | some i2 =>
        match text[i2]? with
        | none => none
        | some c =>
          if c = 32 ∨ c = 10 then
            match setRune typed i2 c with
            | none => none
            | some typed2 => some (typed2, i2 + 1)
          else some (typed, i2)

/-- The loop `for idx > 0 && text[idx] == '\n' { idx-- }` of plain backspace. -/
def backOverNewlines (text : List Rune) : Nat → Option Nat
  | 0 => some 0
  | k + 1 =>
    match text[k + 1]? with
    | none => none
    | some c => if c = 10 then backOverNewlines text k else some (k + 1)

/-- The loop `for idx < len(text) && text[idx] != ' ' && text[idx] != '\n'
{ typed[idx] = 0; idx++ }`; the first argument is `text[idx:]`. -/
def skipWordLoop : List Rune → List Rune → Nat → Option (List Rune × Nat)
  | [], typed, idx => some (typed, idx)
  | c :: rest, typed, idx =>
    if c ≠ 32 ∧ c ≠ 10 then
      match setRune typed idx 0 with
      | none => none
      | some typed2 => skipWordLoop rest typed2 (idx + 1)
    else some (typed, idx)

/-- The loop `for idx < len(text) && text[idx] == '\n' { typed[idx] =
text[idx]; idx++ }`; the first argument is `text[idx:]`. -/
def newlineLoop : List Rune → List Rune → Nat → Option (List Rune × Nat)
  | [], typed, idx => some (typed, idx)
  | c :: rest, typed, idx =>
    if c = 10 then
      match setRune typed idx c with
      | none => none
      | some typed2 => newlineLoop rest typed2 (idx + 1)
    else some (typed, idx)

/-- What one pass through the body of the event loop ends with: the loop goes
on with the state, or `play` returns with the named results of the state. -/
inductive Step where
  | running (st : PlayState)
  | returned (st : PlayState)
deriving DecidableEq, Repr

/-- The test `if idx == len(text) { calcStats(); return }` that closes the
case `tcell.KeyRune`. -/
def finishRune (st : PlayState) (later : Int) : Option Step :=
  if st.idx = st.text.length then (calcStats st later).map Step.returned
  else some (Step.running st)

/-- The case `tcell.KeyRune` of the key switch, for the rune `r`. -/
def keyRune (cfg : Config) (st : PlayState) (r : Rune) (later : Int) : Option Step :=
  if st.idx < st.text.length then
    if cfg.SkipWord ∧ r = 32 then
      if 0 < st.idx ∧ st.text[st.idx - 1]? = some 32 ∧ st.text[st.idx]? ≠ some 32 then
        some (Step.running st)
      else
        match skipWordLoop (st.text.drop st.idx) st.typed st.idx with
        | none => none
        | some (typed1, idx1) =>
          match (match st.text[idx1]? with
                 | none => some (typed1, idx1)
                 | some b => (setRune typed1 idx1 b).map (fun t => (t, idx1 + 1))) with
          | none => none
          | some (typed2, idx2) =>
            match newlineLoop (st.text.drop idx2) typed2 idx2 with
            | none => none
            | some (typed3, idx3) => finishRune { st with typed := typed3, idx := idx3 } later
    else
      match setRune st.typed st.idx r with
      | none => none
      | some typed1 =>
        match newlineLoop (st.text.drop (st.idx + 1)) typed1 (st.idx + 1) with
        | none => none
        | some (typed3, idx3) => finishRune { st with typed := typed3, idx := idx3 } later
  else finishRune st later

/-- The body of the event loop after `PollEvent`: the type switch on the
event. `none` is a panic on an index out of range. -/
def handleEvent (cfg : Config) (timeLimit : Int) (st : PlayState) (inp : Input) : Option Step :=
  match inp.ev with
  | Event.EventResize => some (Step.returned { st with rc := GoTypeResize })
  | Event.EventKey key r mods =>
    if ¬ cfg.windows ∧ key = Key.KeyBackspace then
      if ¬ cfg.DisableBackspace then
        (deleteWord st.text st.typed st.idx).map
          (fun p => Step.running { st with typed := p.1, idx := p.2 })
      else some (Step.running st)
    else
      let st := if st.startTime = none then { st with startTime := some inp.now } else st
      match key with
      | Key.KeyCtrlC => some (Step.returned { st with rc := GoTypeSigInt })
      | Key.KeyEscape => some (Step.returned { st with rc := GoTypeEscape })
      | Key.KeyCtrlL => some (Step.running st)
      | Key.KeyRight => some (Step.returned { st with rc := GoTypeNext })
      | Key.KeyLeft => some (Step.returned { st with rc := GoTypePrevious })
      | Key.KeyCtrlW =>
        if ¬ cfg.DisableBackspace then
          (deleteWord st.text st.typed st.idx).map
            (fun p => Step.running { st with typed := p.1, idx := p.2 })
        else some (Step.running st)
      | Key.KeyBackspace | Key.KeyBackspace2 =>
        if ¬ cfg.DisableBackspace then
          if mods = ModAlt ∨ mods = ModCtrl then
            (deleteWord st.text st.typed st.idx).map
              (fun p => Step.running { st with typed := p.1, idx := p.2 })
          else if st.idx = 0 then some (Step.running st)
          else
            (backOverNewlines st.text (st.idx - 1)).map
              (fun i => Step.running { st with idx := i })
        else some (Step.running st)
      | Key.KeyRune => keyRune cfg st r inp.later
      | Key.KeyOther => some (Step.running st)
  | Event.Tick =>
    if timeLimit ≠ -1 ∧ st.startTime ≠ none ∧ timeLimit ≤ since st.startTime inp.now then
      (calcStats st inp.later).map Step.returned
    else (redraw cfg st inp.later).map Step.running

/-- The values `play` returns. -/
structure PlayResult where
  nerrs : Nat
  ncorrect : Nat
  rc : Nat
  duration : Int
  mistakes : List mistake
deriving DecidableEq, Repr

/-- The named results held by a state. -/
def PlayState.result (st : PlayState) : PlayResult :=
  { nerrs := st.nerrs, ncorrect := st.ncorrect, rc := st.rc,
    duration := st.duration, mistakes := st.mistakes }

/-- How a run of `play` on a finite script of inputs ends: it returns, leaving
the inputs it did not consume; it panics on an index out of range; or it has
consumed the script and waits in `PollEvent` with the given state. -/
inductive PlayOutcome where
  | returned (res : PlayResult) (rest : List Input)
  | indexPanic
  | waiting (st : PlayState)
deriving DecidableEq, Repr

/-- The event loop `for { redraw(); ev := PollEvent(); switch ... }` of `play`.
When the script is used up the loop still redraws before it waits; the state
it waits with is reported as it was before that redraw, whose clock reading
plays no part in whether it panics. -/
def playLoop (cfg : Config) (timeLimit : Int) : PlayState → List Input → PlayOutcome
  | st, [] =>
    match redraw cfg st 0 with
    | none => PlayOutcome.indexPanic
    | some _ => PlayOutcome.waiting st
  | st, inp :: rest =>
    match redraw cfg st inp.drawn with
    | none => PlayOutcome.indexPanic
    | some st1 =>
      match handleEvent cfg timeLimit st1 inp with
      | none => PlayOutcome.indexPanic
      | some (Step.returned st2) => PlayOutcome.returned st2.result rest
      | some (Step.running st2) => playLoop cfg timeLimit st2 rest

/-- The state in which `play(s, timeLimit, startImmediately, attribution)`
enters its event loop; `t0` is the reading `time.Now()` for a segment that
starts immediately, and `s` is given as the rune sequence `[]rune(s)`. -/
def initialState (s : List Rune) (startImmediately : Bool) (t0 : Int) : PlayState :=
  { text := s, typed := List.replicate s.length 0, idx := 0,
    startTime := if startImmediately then some t0 else none,
    nerrs := 0, ncorrect := 0, rc := 0, duration := 0, mistakes := [] }

/-- The Go method `play`, run on a script of inputs. -/
def play (cfg : Config) (s : List Rune) (timeLimit : Int) (startImmediately : Bool)
    (t0 : Int) (inputs : List Input) : PlayOutcome :=
  playLoop cfg timeLimit (initialState s startImmediately t0) inputs

/-! ## `cmd/types.go`: the multi-segment driver `StartTest` -/

/-- The Go struct `segment`; `Text` is kept as its rune sequence. -/
structure segment where
  Text : List Rune
  Attribution : List Rune
deriving DecidableEq, Repr

/-- The named results of `StartTest`. -/
structure TestResult where
  numerrs : Nat
  numcorrect : Nat
  duration : Int
  rc : Nat
  mistakes : List mistake
  wpms : List Int
deriving DecidableEq, Repr

/-- How a run of `StartTest` on a finite script of inputs ends. -/
inductive TestOutcome where
  | returned (res : TestResult) (rest : List Input)
  | indexPanic
  | waiting (st : PlayState)
deriving DecidableEq, Repr

/-- The loop `for idx, seg := range text` of `StartTest`, from segment `idx`
on, with the current `timeLeft` and named results `acc`; `starts idx` is the
reading `time.Now()` with which segment `idx` starts. -/
def StartTestLoop (cfg : Config) (timeout : Int) (starts : Nat → Int) :
    List segment → Nat → Int → TestResult → List Input → TestOutcome
  | [], _, _, acc, inputs => TestOutcome.returned acc inputs
  | seg :: segs, idx, timeLeft, acc, inputs =>
    match play cfg seg.Text timeLeft (if idx = 0 then false else true) (starts idx) inputs with
    | PlayOutcome.indexPanic => TestOutcome.indexPanic
    | PlayOutcome.waiting st => TestOutcome.waiting st
    | PlayOutcome.returned r rest =>
      let acc1 : TestResult :=
        { numerrs := acc.numerrs + r.nerrs, numcorrect := acc.numcorrect + r.ncorrect,
          duration := acc.duration + r.duration, rc := r.rc,
          mistakes := acc.mistakes ++ r.mistakes, wpms := acc.wpms }
      if timeout ≠ -1 then
        if timeLeft - r.duration ≤ 0 then TestOutcome.returned acc1 rest
        else if r.rc ≠ GoTypeComplete then TestOutcome.returned acc1 rest
        else StartTestLoop cfg timeout starts segs (idx + 1) (timeLeft - r.duration) acc1 rest
      else if r.rc ≠ GoTypeComplete then TestOutcome.returned acc1 rest
      else StartTestLoop cfg timeout starts segs (idx + 1) timeLeft acc1 rest

/-- The Go method `StartTest(text, timeout)`, run on a script of inputs. -/
def StartTest (cfg : Config) (text : List segment) (timeout : Int) (starts : Nat → Int)
    (inputs : List Input) : TestOutcome :=
  StartTestLoop cfg timeout starts text 0 timeout
    { numerrs := 0, numcorrect := 0, duration := 0, rc := 0, mistakes := [], wpms := [] } inputs

/-! ## `cmd/main.go`: the logic loop of `main` -/

/-- The two variables of the logic loop of `main`: the tests generated so far
(a `nil` test is `none`) and the index of the current test, a Go `int`. -/
structure Driver where
  tests : List (Option (List segment))
  currentTestIdx : Int
deriving DecidableEq, Repr

/-- What one iteration of the logic loop receives from its environment: the
test that `typingTestGetter()` returns if it is called, the clock readings and
the inputs of the user for `StartTest`, and whether the user leaves the report
with Ctrl-C (rather than with Escape). -/
structure Round where
  fresh : Option (List segment)
  starts : Nat → Int
  inputs : List Input
  reportInterrupted : Bool

/-- How one iteration of the logic loop ends: the loop goes on with new
variables, the process exits with a code, an index is out of range, or the
inputs of the round run out inside `StartTest`. -/
inductive MainStep where
  | next (d : Driver)
  | exited (code : Nat)
  | indexPanic
  | waiting
deriving DecidableEq, Repr

/-- One iteration of the logic loop of `main`. `timeout` is the budget in
nanoseconds (or -1) and `sw` the screen width; the texts are ASCII, so that
the bytes `wrapText` works on are the runes `StartTest` plays. The index
expression `tests[currentTestIdx]` panics for a negative index and for one
that is not below `len(tests)`. The report is shown when the test is
complete; `rc` values without a case (`GoTypeEscape`) and `GoTypeResize`
leave the index as it is. -/
def mainIteration (cfg : Config) (timeout : Int) (sw : Int) (oneShotMode : Bool) (d : Driver)
    (rd : Round) : MainStep :=
  let tests1 :=
    if d.currentTestIdx ≥ (d.tests.length : Int) then d.tests ++ [rd.fresh] else d.tests
  if d.currentTestIdx < 0 then MainStep.indexPanic
  else
    match tests1[d.currentTestIdx.toNat]? with
    | none => MainStep.indexPanic
    | some none => MainStep.exited 1
    | some (some t) =>
      let t1 := t.map (fun seg => { seg with Text := wrapText sw seg.Text 80 })
      let tests2 := tests1.set d.currentTestIdx.toNat (some t1)
      match StartTest cfg t1 timeout rd.starts rd.inputs with
      | TestOutcome.indexPanic => MainStep.indexPanic
      | TestOutcome.waiting _ => MainStep.waiting
      | TestOutcome.returned res _ =>
        if res.rc = GoTypeNext then MainStep.next ⟨tests2, d.currentTestIdx + 1⟩
        else if res.rc = GoTypePrevious then MainStep.next ⟨tests2, d.currentTestIdx - 1⟩
        else if res.rc = GoTypeComplete then
          if rd.reportInterrupted then MainStep.exited 1
          else if oneShotMode then MainStep.exited 0
          else MainStep.next ⟨tests2, d.currentTestIdx + 1⟩
        else if res.rc = GoTypeSigInt then MainStep.exited 1
        else MainStep.next ⟨tests2, d.currentTestIdx⟩

/-- The logic loop of `main` over a finite list of rounds, from the variables
`d`: when the rounds run out at the head of an iteration, the variables there
are reported. -/
def mainLoop (cfg : Config) (timeout : Int) (sw : Int) (oneShotMode : Bool) :
    Driver → List Round → MainStep
  | d, [] => MainStep.next d
  | d, rd :: rds =>
    match mainIteration cfg timeout sw oneShotMode d rd with
    | MainStep.next d1 => mainLoop cfg timeout sw oneShotMode d1 rds
    | MainStep.exited code => MainStep.exited code
    | MainStep.indexPanic => MainStep.indexPanic
    | MainStep.waiting => MainStep.waiting

/-- The logic loop of `main` from its start: no test generated yet, index 0. -/
def mainRun (cfg : Config) (timeout : Int) (sw : Int) (oneShotMode : Bool)
    (rds : List Round) : MainStep :=
  mainLoop cfg timeout sw oneShotMode ⟨[], 0⟩ rds

/-! ## Auxiliary definitions used by the theorems -/

/-- The entries that a list of words (runs of target/typed pairs) gives. -/
def entriesOf (runs : List (List (Rune × Rune))) : List mistake :=
  (runs.filter (fun run => run.any (fun p => p.1 != p.2))).map
    (fun run => ⟨run.map (fun p => shown p.1), run.map (fun p => shown p.2)⟩)

/-- The words of `cur ++ s` for a piece `cur` of a word read so far: a
recursive form of `fields`. -/
def fieldsAux : List Nat → List Nat → List (List Nat)
  | cur, [] => if cur.isEmpty then [] else [cur]
  | cur, c :: cs =>
    if isSpaceByte c then
      (if cur.isEmpty then fieldsAux [] cs else cur :: fieldsAux [] cs)
    else fieldsAux (cur ++ [c]) cs

/-- Two bytes are alike when they are equal or both whitespace. -/
def alike (a b : Nat) : Prop := a = b ∨ (isSpaceByte a = true ∧ isSpaceByte b = true)

/-- The lines `Ls`, each followed by `sep`, one after the other. -/
def joinLines (sep : List Nat) : List (List Nat) → List Nat
  | [] => []
  | L :: Ls => L ++ sep ++ joinLines sep Ls

/-- The invariant of the loop of `wordWrapBytes` before index `i`, for an
input `s0` without newline bytes: the bytes read so far are the finished lines
`Ls`, each followed by a space of the input that the loop has turned into a
newline, and the current line `cl`. A finished line has at most `n` bytes or
no space; the current line has `sz` bytes, at most `n`, or it has no space and
more than `n` bytes; `sp` is the last space of the current line or, without
one, the last break (0 before the first break). -/
def WrapInv (n : Int) (s0 : List Nat) (i : Nat) (st : WrapState) : Prop :=
  ∃ (Ls : List (List Nat)) (cl : List Nat),
    s0.take i = joinLines [32] Ls ++ cl ∧
    st.s = joinLines [10] Ls ++ cl ++ s0.drop i ∧
    (∀ L ∈ Ls, (L.length : Int) ≤ n ∨ 32 ∉ L) ∧
    ((st.sz = cl.length ∧ st.sz ≤ n) ∨ (32 ∉ cl ∧ (cl.length : Int) > n ∧ st.sz ≥ n)) ∧
    ((32 ∉ cl ∧ st.sp = (joinLines [10] Ls).length - 1) ∨
      (∃ c1 c2, cl = c1 ++ 32 :: c2 ∧ 32 ∉ c2 ∧ st.sp = (joinLines [10] Ls).length + c1.length))

/-- No two neighbouring bytes are both whitespace. -/
def NoAdjacentWs (l : List Nat) : Prop :=
  List.Chain' (fun a b => ¬ (isSpaceByte a = true ∧ isSpaceByte b = true)) l

/-- The text `wrapText` hands to `wordWrap`: whitespace runs collapsed, spaces
at both ends trimmed. -/
def normalized (text : List Nat) : List Nat := trimSpaces (collapseWs false text)

/-- The width `wsz` that `wrapText` passes on for the requested `width` on a
screen of width `sw`. -/
def reflowWidth (sw width : Int) : Int := if width > sw then sw - 8 else width

/-- The number of positions below `cursor` whose target is no newline and
whose typed rune equals the target rune. -/
def countCorrect (text typed : List Rune) (cursor : Nat) : Nat :=
  (List.range cursor).countP (fun i => text[i]? != some 10 && typed[i]? == text[i]?)

/-- The number of positions below `cursor` whose target is no newline and
whose typed rune differs from the target rune. -/
def countWrong (text typed : List Rune) (cursor : Nat) : Nat :=
  (List.range cursor).countP (fun i => text[i]? != some 10 && typed[i]? != text[i]?)

/-- The number of positions below `cursor` whose target is no newline. -/
def countTargets (text : List Rune) (cursor : Nat) : Nat :=
  (List.range cursor).countP (fun i => text[i]? != some 10)

/-- The tick test of `play`: a time limit is set, the clock has started at
some `t0`, and at clock reading `now` at least `timeLimit` has passed. -/
def timedOut (timeLimit : Int) (st : PlayState) (now : Int) : Prop :=
  timeLimit ≠ -1 ∧ ∃ t0, st.startTime = some t0 ∧ timeLimit ≤ now - t0

/-- The named results of `StartTest` after a segment has returned `r`. -/
def addResult (acc : TestResult) (r : PlayResult) : TestResult :=
  { numerrs := acc.numerrs + r.nerrs, numcorrect := acc.numcorrect + r.ncorrect,
    duration := acc.duration + r.duration, rc := r.rc,
    mistakes := acc.mistakes ++ r.mistakes, wpms := acc.wpms }

/-- The state in which `calcStats`, run at clock reading `now`, leaves a state
whose cursor is within the text: the statistics and the mistakes over the
positions below the cursor, outcome `GoTypeComplete`. -/
def withStats (st : PlayState) (now : Int) : PlayState :=
  { st with
    nerrs := countWrong st.text st.typed st.idx,
    ncorrect := countCorrect st.text st.typed st.idx,
    mistakes := specMistakes (st.text.take st.idx) (st.typed.take st.idx),
    rc := GoTypeComplete,
    duration := since st.startTime now }

/-- The target runes that end a word: space and newline. -/
def isBlank (c : Rune) : Bool := c == 32 || c == 10

/-- The least index at or after `c` whose target is a space or a newline, and
the length of the text when there is none. -/
def boundaryFrom (text : List Rune) (c : Nat) : Nat :=
  c + ((text.drop c).takeWhile (fun x => !isBlank x)).length

/-- The number of newlines that stand in a row from index `j` on. -/
def newlinesFrom (text : List Rune) (j : Nat) : Nat :=
  ((text.drop j).takeWhile (fun x => x == 10)).length

/-- The test of `play` for "do nothing on word boundaries": the cursor is not
at 0, a space stands before it and no space at it. -/
def atWordBoundary (st : PlayState) : Prop :=
  0 < st.idx ∧ st.text[st.idx - 1]? = some 32 ∧ st.text[st.idx]? ≠ some 32

/-- The state after a key event has passed the start of the key switch: the
clock is started if it had not been. -/
def started (st : PlayState) (now : Int) : PlayState :=
  if st.startTime = none then { st with startTime := some now } else st

/-- A trace of `StartTest`: for every segment that was played to its end, in
segment order, what `play` returned for it and the inputs it left unread. -/
abbrev Trace := List (PlayResult × List Input)

/-- The sum of the durations of the first `k` segments of a trace. -/
def spent : Trace → Nat → Int
  | [], _ => 0
  | _ :: _, 0 => 0
  | x :: tr, k + 1 => x.1.duration + spent tr k

/-- The inputs still unread when segment `k` of a trace starts: the inputs of
the whole test for the first segment, and what the segment before left unread
for every other. -/
def inputsAt (inputs : List Input) : Trace → Nat → List Input
  | [], _ => inputs
  | _ :: _, 0 => inputs
  | x :: tr, k + 1 => inputsAt x.2 tr k

/-- The segments of the trace `tr` were played as `StartTest` with a budget
plays them, `first` being the index of the first of them and `budget` the time
left when it starts: segment `k` was played with the time limit `budget` minus
the durations of the segments before it, on the inputs those left unread, and
returned what the trace says; the limit of every segment after the first was
positive; and every segment that was followed by another one ended as
complete with the durations summing to less than the budget. -/
def PlayedAs (cfg : Config) (starts : Nat → Int) (segs : List segment) (first : Nat)
    (budget : Int) (inputs : List Input) (tr : Trace) : Prop :=
  tr.length ≤ segs.length ∧
  ∀ k, k < tr.length →
    ∃ seg r rest, segs[k]? = some seg ∧ tr[k]? = some (r, rest) ∧
      play cfg seg.Text (budget - spent tr k) (if first + k = 0 then false else true)
          (starts (first + k)) (inputsAt inputs tr k)
        = PlayOutcome.returned r rest ∧
      (0 < k → 0 < budget - spent tr k) ∧
      (k + 1 < tr.length → r.rc = GoTypeComplete ∧ spent tr (k + 1) < budget)

/-- After the segments of the trace `tr`, the next segment is being played,
with the time limit `budget` minus the durations so far, and `play` ends as
`out`; the segment before it, if any, ended as complete within the budget. -/
def InProgress (cfg : Config) (starts : Nat → Int) (segs : List segment) (first : Nat)
    (budget : Int) (inputs : List Input) (tr : Trace) (out : PlayOutcome) : Prop :=
  ∃ seg, segs[tr.length]? = some seg ∧
    play cfg seg.Text (budget - spent tr tr.length)
        (if first + tr.length = 0 then false else true) (starts (first + tr.length))
        (inputsAt inputs tr tr.length)
      = out ∧
    ∀ r rest, tr.getLast? = some (r, rest) →
      r.rc = GoTypeComplete ∧ spent tr tr.length < budget

/-- How a run of `StartTest` ends after the trace `tr`, `acc` being the named
results before the first segment of the trace. If it returns, it returns the
inputs the last segment left unread and the results of the segments of the
trace added up, and if a segment was left unplayed, the last segment played
used up the budget or did not end as complete. If it does not return, the
next segment is in progress. -/
def EndsAs (cfg : Config) (starts : Nat → Int) (segs : List segment) (first : Nat)
    (budget : Int) (inputs : List Input) (acc : TestResult) (tr : Trace) : TestOutcome → Prop
  | TestOutcome.returned res rest =>
    rest = inputsAt inputs tr tr.length ∧
    res = tr.foldl (fun a x => addResult a x.1) acc ∧
    (tr.length < segs.length →
      ∃ r rest1, tr.getLast? = some (r, rest1) ∧
        (budget ≤ spent tr tr.length ∨ r.rc ≠ GoTypeComplete))
  | TestOutcome.waiting st =>
    InProgress cfg starts segs first budget inputs tr (PlayOutcome.waiting st)
  | TestOutcome.indexPanic =>
    InProgress cfg starts segs first budget inputs tr PlayOutcome.indexPanic

/-- The key events of a user who types the characters of `s` one after the
other, the clock standing at 0. -/
def keysOf (s : String) : List Input :=
  (runes s).map (fun r => ⟨Event.EventKey Key.KeyRune r 0, 0, 0, 0⟩)

/-- The cursor stands on the first character of a word: there is a character
under it, neither a space nor a newline, and it is at 0 or the character
before it is a space or a newline. -/
def onWordStart (text : List Rune) (idx : Nat) : Prop :=
  text[idx]? ≠ none ∧ text[idx]? ≠ some 32 ∧ text[idx]? ≠ some 10 ∧
    (idx = 0 ∨ text[idx - 1]? = some 32 ∨ text[idx - 1]? = some 10)

instance (text : List Rune) (idx : Nat) : Decidable (onWordStart text idx) :=
  inferInstanceAs (Decidable (_ ∧ _))

/-- The cursor of the state in which `play` waits for its next event, if it
does. -/
def PlayOutcome.cursor? : PlayOutcome → Option Nat
  | PlayOutcome.waiting st => some st.idx
  | _ => none

theorem specMistakes_eq (text typed : List Rune) :
    specMistakes text typed = entriesOf ((text.zip typed).splitOnP (fun p => p.1 == 32)) := rfl

theorem extractLoop_eq (typed : List Rune) :
    ∀ (xs : List Rune) (i : Nat) (run : List (Rune × Rune)) (ms : List mistake),
      (∀ p ∈ run, p.1 ≠ 32) → xs.length + i ≤ typed.length →
      extractLoop typed xs i (run.map (fun p => shown p.1)) (run.map (fun p => shown p.2))
          (run.any (fun p => p.1 != p.2)) ms
        = some (ms ++ entriesOf ((run ++ xs.zip (typed.drop i)).splitOnP (fun p => p.1 == 32))) := by
  intro xs
  induction xs with
  | nil =>
    intro i run ms hrun _
    have hsingle : (run.splitOnP (fun p => p.1 == 32)) = [run] :=
      List.splitOnP_eq_single _ _ (by simpa using hrun)
    simp only [extractLoop, List.zip_nil_left, List.append_nil, hsingle, entriesOf]
    by_cases hf : run.any (fun p => p.1 != p.2) = true
    · simp [hf, List.filter]
    · simp only [Bool.not_eq_true] at hf
      simp [hf, List.filter]
  | cons x rest ih =>
    intro i run ms hrun hlen
    have hi : i < typed.length := by simp at hlen; omega
    have hdrop : typed.drop i = typed[i] :: typed.drop (i + 1) := List.drop_eq_getElem_cons hi
    have hlen2 : rest.length + (i + 1) ≤ typed.length := by simp at hlen; omega
    by_cases hx : x = 32
    · subst hx
      have hsplit : ((run ++ (32, typed[i]) :: rest.zip (typed.drop (i + 1))).splitOnP
            (fun p => p.1 == 32))
          = run :: (rest.zip (typed.drop (i + 1))).splitOnP (fun p => p.1 == 32) :=
        List.splitOnP_first _ _ (by simpa using hrun) _ (by simp) _
      have hih := ih (i + 1) [] (if run.any (fun p => p.1 != p.2) = true then
          ms ++ [⟨run.map (fun p => shown p.1), run.map (fun p => shown p.2)⟩] else ms)
          (by simp) hlen2
      simp only [List.map_nil, List.any_nil, List.nil_append] at hih
      simp only [extractLoop, if_true, hdrop, List.zip_cons_cons, hsplit, hih]
      by_cases hf : run.any (fun p => p.1 != p.2) = true
      · simp [hf, entriesOf, List.filter]
      · simp only [Bool.not_eq_true] at hf
        simp [hf, entriesOf, List.filter]
    · have hget : typed[i]? = some typed[i] := List.getElem?_eq_getElem hi
      have hih := ih (i + 1) (run ++ [(x, typed[i])]) ms
          (by
            intro p hp
            rcases List.mem_append.1 hp with h | h
            · exact hrun p h
            · simp at h; subst h; exact hx) hlen2
      have hflag : (if x ≠ typed[i] then true else run.any (fun p => p.1 != p.2))
          = (run ++ [(x, typed[i])]).any (fun p => p.1 != p.2) := by
        by_cases hxy : x = typed[i]
        · simp [hxy]
        · simp [hxy]
      simp only [extractLoop, if_neg hx, hget, hdrop, List.zip_cons_cons]
      rw [hflag]
      simp only [List.map_append, List.map_cons, List.map_nil, shown, List.append_assoc,
        List.singleton_append] at hih
      simpa [shown] using hih

/-- C1. For a target and a typed rune sequence of the same length,
`extractMistypedWords` returns (without a panic) the mistake list of the
specification: cutting the target at its spaces into words, it has, from left
to right, exactly one entry for every word with a position whose typed rune
differs from the target rune and none for the other words; the entry holds the
runes of the target word and the typed runes at the same positions, the zero
rune shown as an underscore. -/
theorem extractMistypedWords_spec (text typed : List Rune)
    (hlen : text.length = typed.length) :
    extractMistypedWords text typed = some (specMistakes text typed) := by
  have h := extractLoop_eq typed text 0 [] [] (by simp) (by omega)
  simpa [extractMistypedWords, specMistakes_eq] using h

/-- The example of C1: target "the cat sat" typed as "the cot sit" gives the
entries cat/cot and sat/sit, and none for "the". -/
theorem extractMistypedWords_spec_witness :
    extractMistypedWords (runes "the cat sat") (runes "the cot sit")
      = some [⟨runes "cat", runes "cot"⟩, ⟨runes "sat", runes "sit"⟩] := by
  rw [extractMistypedWords_spec (runes "the cat sat") (runes "the cot sit") (by decide)]
  decide

/-! ## Words of a byte string -/

theorem splitOnP_append_sep {α : Type} (p : α → Bool) (sep : α) (hsep : p sep = true)
    (b : List α) : ∀ a : List α,
    (a ++ sep :: b).splitOnP p = a.splitOnP p ++ b.splitOnP p := by
  intro a
  induction a with
  | nil => simp [List.splitOnP_cons, hsep]
  | cons x a ih =>
    simp only [List.cons_append, List.splitOnP_cons, ih]
    by_cases hx : p x = true
    · simp [hx]
    · simp only [hx, if_false]
      cases h : a.splitOnP p with
      | nil => exact absurd h (List.splitOnP_ne_nil p a)
      | cons y ys => simp [List.modifyHead]

theorem fields_append_sep (sep : Nat) (hsep : isSpaceByte sep = true) (a b : List Nat) :
    fields (a ++ sep :: b) = fields a ++ fields b := by
  simp [fields, splitOnP_append_sep isSpaceByte sep hsep b a]

theorem fields_word (w : List Nat) (hw : ∀ c ∈ w, isSpaceByte c = false) :
    fields w = if w.isEmpty then [] else [w] := by
  have h : w.splitOnP isSpaceByte = [w] :=
    List.splitOnP_eq_single _ _ (by intro x hx; simp [hw x hx])
  cases w with
  | nil => simp [fields]
  | cons c cs => simp [fields, h, List.filter]

theorem fieldsAux_eq : ∀ (l cur : List Nat), (∀ c ∈ cur, isSpaceByte c = false) →
    fieldsAux cur l = fields (cur ++ l) := by
  intro l
  induction l with
  | nil =>
    intro cur hcur
    simp [fieldsAux, fields_word cur hcur]
  | cons c cs ih =>
    intro cur hcur
    by_cases hc : isSpaceByte c = true
    · have hnil : fieldsAux [] cs = fields cs := by simpa using ih [] (by simp)
      rw [fields_append_sep c hc, fields_word cur hcur, ← hnil]
      by_cases he : cur.isEmpty = true
      · simp [fieldsAux, hc, he]
      · simp [fieldsAux, hc, he]
    · simp only [Bool.not_eq_true] at hc
      have := ih (cur ++ [c]) (by
        intro x hx
        rcases List.mem_append.1 hx with h | h
        · exact hcur x h
        · simp at h; subst h; exact hc)
      simp [fieldsAux, hc, this]

theorem fields_eq_aux (l : List Nat) : fields l = fieldsAux [] l := by
  rw [fieldsAux_eq l [] (by simp)]; simp

theorem fieldsAux_collapseWs : ∀ (l cur : List Nat) (b : Bool), (b = true → cur = []) →
    fieldsAux cur (collapseWs b l) = fieldsAux cur l := by
  intro l
  induction l with
  | nil => intro cur b _; simp [collapseWs]
  | cons c cs ih =>
    intro cur b hb
    by_cases hc : isSpaceByte c = true
    · cases b with
      | true =>
        have hcur := hb rfl
        subst hcur
        simp [collapseWs, fieldsAux, hc, ih [] true (by simp)]
      | false =>
        have h32 : isSpaceByte 32 = true := by decide
        simp [collapseWs, fieldsAux, hc, h32, ih [] true (by simp)]
    · simp only [Bool.not_eq_true] at hc
      simp [collapseWs, fieldsAux, hc, ih (cur ++ [c]) false (by simp)]

theorem fieldsAux_replaceNewlines : ∀ (l cur : List Nat),
    fieldsAux cur (replaceNewlines l) = fieldsAux cur l := by
  intro l
  induction l with
  | nil => intro cur; simp [replaceNewlines]
  | cons c cs ih =>
    intro cur
    by_cases hc : c = 10
    · subst hc
      have h32 : isSpaceByte 32 = true := by decide
      have h10 : isSpaceByte 10 = true := by decide
      by_cases he : cur.isEmpty = true
      · simp [replaceNewlines, fieldsAux, h32, h10, he, ih]
      · simp [replaceNewlines, fieldsAux, h32, h10, he, ih]
    · by_cases hs : isSpaceByte c = true
      · simp [replaceNewlines, fieldsAux, hc, hs, ih]
      · simp [replaceNewlines, fieldsAux, hc, hs, ih]

theorem fieldsAux_alike : ∀ (a b : List Nat), List.Forall₂ alike a b → ∀ cur : List Nat,
    fieldsAux cur a = fieldsAux cur b := by
  intro a b h
  induction h with
  | nil => intro cur; rfl
  | cons hxy _ ih =>
    intro cur
    rcases hxy with rfl | ⟨hx, hy⟩
    · simp [fieldsAux, ih]
    · simp [fieldsAux, hx, hy, ih]

theorem fieldsAux_dropWhile (l : List Nat) :
    fieldsAux [] (l.dropWhile (fun c => c == 32)) = fieldsAux [] l := by
  induction l with
  | nil => rfl
  | cons c cs ih =>
    by_cases hc : c = 32
    · subst hc
      have h32 : isSpaceByte 32 = true := by decide
      simp [List.dropWhile_cons, fieldsAux, h32, ih]
    · simp [List.dropWhile_cons, hc]

theorem fieldsAux_append_space : ∀ (l cur : List Nat),
    fieldsAux cur (l ++ [32]) = fieldsAux cur l := by
  intro l
  induction l with
  | nil =>
    intro cur
    have h32 : isSpaceByte 32 = true := by decide
    by_cases he : cur.isEmpty = true
    · simp [fieldsAux, h32, he]
    · simp [fieldsAux, h32, he]
  | cons c cs ih =>
    intro cur
    by_cases hs : isSpaceByte c = true
    · simp [fieldsAux, hs, ih]
    · simp [fieldsAux, hs, ih]

theorem fieldsAux_rdropWhile (l cur : List Nat) :
    fieldsAux cur (l.rdropWhile (fun c => c == 32)) = fieldsAux cur l := by
  induction l using List.reverseRecOn with
  | nil => simp
  | append_singleton l x ih =>
    rw [List.rdropWhile_concat]
    by_cases hx : x = 32
    · subst hx
      simp [ih, fieldsAux_append_space]
    · simp [hx]

theorem fields_trimSpaces (l : List Nat) : fields (trimSpaces l) = fields l := by
  simp [fields_eq_aux, trimSpaces, fieldsAux_rdropWhile, fieldsAux_dropWhile]

theorem fields_collapseWs (l : List Nat) : fields (collapseWs false l) = fields l := by
  simp [fields_eq_aux, fieldsAux_collapseWs]

theorem fields_replaceNewlines (l : List Nat) : fields (replaceNewlines l) = fields l := by
  simp [fields_eq_aux, fieldsAux_replaceNewlines]

/-! ## The loop of `wordWrapBytes` -/

theorem joinLines_append (sep : List Nat) (Ls : List (List Nat)) (L : List Nat) :
    joinLines sep (Ls ++ [L]) = joinLines sep Ls ++ (L ++ sep) := by
  induction Ls with
  | nil => simp [joinLines]
  | cons K Ks ih => simp [joinLines, ih]

theorem joinLines_length (a b : Nat) (Ls : List (List Nat)) :
    (joinLines [a] Ls).length = (joinLines [b] Ls).length := by
  induction Ls with
  | nil => rfl
  | cons K Ks ih => simp [joinLines, ih]

theorem joinLines_eq_concat (a : Nat) (Ls : List (List Nat)) (h : Ls ≠ []) :
    ∃ P0, joinLines [a] Ls = P0 ++ [a] := by
  induction Ls using List.reverseRecOn with
  | nil => exact absurd rfl h
  | append_singleton Ks K _ =>
    exact ⟨joinLines [a] Ks ++ K, by simp [joinLines_append]⟩

theorem set_at_length (a : List Nat) (x y : Nat) (b : List Nat) :
    (a ++ x :: b).set a.length y = a ++ y :: b := by
  induction a with
  | nil => rfl
  | cons c cs ih => simp [ih]

theorem getElem?_at_length (a : List Nat) (x : Nat) (b : List Nat) :
    (a ++ x :: b)[a.length]? = some x := by
  rw [List.getElem?_append_right (le_refl _)]; simp

theorem wrapInv_init (n : Int) (s0 : List Nat) :
    WrapInv n s0 0 { s := s0, sp := 0, sz := 0 } := by
  refine ⟨[], [], by simp [joinLines], by simp [joinLines], by simp, ?_, ?_⟩
  · by_cases h : (0 : Int) ≤ n
    · left; simp [h]
    · right; simp; omega
  · left; simp [joinLines]

theorem wrapInv_step (n : Int) (s0 : List Nat) (h10 : 10 ∉ s0) (hhead : s0.head? ≠ some 32)
    (i : Nat) (hi : i < s0.length) (st : WrapState) (h : WrapInv n s0 i st) :
    WrapInv n s0 (i + 1) (wordWrapStep n st i) := by
  obtain ⟨Ls, cl, htake, hs, hLs, hmode, hsp⟩ := h
  have hdrop : s0.drop i = s0[i] :: s0.drop (i + 1) := List.drop_eq_getElem_cons hi
  have htake1 : s0.take (i + 1) = joinLines [32] Ls ++ cl ++ [s0[i]] := by
    rw [List.take_succ, htake, List.getElem?_eq_getElem hi]; rfl
  have hc10 : s0[i] ≠ 10 := fun hc => h10 (hc ▸ List.getElem_mem hi)
  have hlen32 : (joinLines [32] Ls).length + cl.length = i := by
    have := congrArg List.length htake
    simp at this; omega
  have hlenP : (joinLines [10] Ls).length + cl.length = i := by
    rw [joinLines_length 10 32]; exact hlen32
  have hlenA : (joinLines [10] Ls ++ cl).length = i := by simp [hlenP]
  generalize hc : s0[i] = c at hdrop htake1 hc10
  generalize hrest : s0.drop (i + 1) = rest at hdrop
  rw [hdrop] at hs
  have hget : st.s[i]? = some c := by
    rw [hs, ← hlenA]; exact getElem?_at_length _ _ _
  have hi0 : c = 32 → i ≠ 0 := by
    intro hc32 h0
    subst h0
    apply hhead
    cases s0 with
    | nil => simp at hi
    | cons x xs => simp at hc; simp [hc, hc32]
  have hstep : wordWrapStep n st i =
      (if st.sz + 1 > n then
        { s := if (if c = 32 then i else st.sp) ≠ 0 then
                  st.s.set (if c = 32 then i else st.sp) 10 else st.s,
          sp := if c = 32 then i else st.sp,
          sz := (i : Int) - ((if c = 32 then i else st.sp : Nat) : Int) }
      else { s := st.s, sp := if c = 32 then i else st.sp, sz := st.sz + 1 }) := by
    simp [wordWrapStep, hget, hc10]
  rw [hstep]
  simp only [WrapInv, htake1, hrest]
  by_cases hc32 : c = 32
  · -- the byte read is a space
    subst hc32
    have hi0' := hi0 rfl
    simp only [if_true]
    by_cases hbig : st.sz + 1 > n
    · simp only [hbig, if_true, hi0', ne_eq, not_false_eq_true]
      have hset : st.s.set i 10 = joinLines [10] Ls ++ cl ++ 10 :: rest := by
        rw [hs, ← hlenA]; exact set_at_length _ _ _ _
      refine ⟨Ls ++ [cl], [], ?_, ?_, ?_, ?_, ?_⟩
      · simp [joinLines_append]
      · simp [joinLines_append, hset]
      · intro L hL
        rcases List.mem_append.1 hL with h | h
        · exact hLs L h
        · simp at h; subst h
          rcases hmode with ⟨h1, h2⟩ | ⟨h1, _, _⟩
          · left; omega
          · right; exact h1
      · by_cases hn : (0 : Int) ≤ n
        · left; simp [hn]
        · right; simp; omega
      · left
        refine ⟨by simp, ?_⟩
        simp [joinLines_append]; omega
    · simp only [hbig, if_false]
      have hA : st.sz = cl.length ∧ st.sz ≤ n := by
        rcases hmode with h | ⟨_, _, h3⟩
        · exact h
        · exfalso; omega
      refine ⟨Ls, cl ++ [32], by simp, by simp [hs], hLs, ?_, ?_⟩
      · left; constructor
        · simp; omega
        · omega
      · right; exact ⟨cl, [], by simp, by simp, by omega⟩
  · -- the byte read is no space
    simp only [hc32, if_false]
    by_cases hbig : st.sz + 1 > n
    · simp only [hbig, if_true]
      rcases hsp with ⟨hno, hspv⟩ | ⟨c1, c2, hcl, hc2, hspv⟩
      · -- no space on the current line: no new break
        have hsame : (if st.sp ≠ 0 then st.s.set st.sp 10 else st.s) = st.s := by
          by_cases h0 : st.sp = 0
          · simp [h0]
          · simp only [h0, ne_eq, not_false_eq_true, if_true]
            have hne : Ls ≠ [] := by
              intro hnil; subst hnil; simp [joinLines] at hspv; exact h0 hspv
            obtain ⟨P0, hP0⟩ := joinLines_eq_concat 10 Ls hne
            have hspP : st.sp = P0.length := by rw [hspv, hP0]; simp
            rw [hs, hP0, hspP]
            simp only [List.append_assoc, List.singleton_append]
            exact set_at_length _ _ _ _
        rw [hsame]
        refine ⟨Ls, cl ++ [c], by simp, by simp [hs], hLs, ?_, ?_⟩
        · right
          refine ⟨?_, ?_, ?_⟩
          · intro hmem
            rcases List.mem_append.1 hmem with h | h
            · exact hno h
            · simp at h; exact hc32 h.symm
          · rcases hmode with ⟨h1, _⟩ | ⟨_, h2, _⟩
            · simp; omega
            · simp; omega
          · rcases hmode with ⟨h1, _⟩ | ⟨_, h2, _⟩
            · omega
            · omega
        · left
          refine ⟨?_, hspv⟩
          intro hmem
          rcases List.mem_append.1 hmem with h | h
          · exact hno h
          · simp at h; exact hc32 h.symm
      · -- the last space of the current line becomes a break
        have hA : st.sz = cl.length ∧ st.sz ≤ n := by
          rcases hmode with h | ⟨h1, _, _⟩
          · exact h
          · exfalso; apply h1; rw [hcl]; simp
        have hsp0 : st.sp ≠ 0 := by
          intro h0
          have hP : (joinLines [10] Ls).length = 0 := by omega
          have hc1 : c1 = [] := by
            apply List.eq_nil_of_length_eq_zero; omega
          have hLsnil : joinLines [32] Ls = [] := by
            apply List.eq_nil_of_length_eq_zero
            rw [joinLines_length 32 10]; exact hP
          apply hhead
          have : s0.take i = 32 :: c2 := by rw [htake, hLsnil, hcl, hc1]; simp
          cases s0 with
          | nil => simp at hi
          | cons x xs =>
            cases i with
            | zero => simp at this
            | succ k => simp at this; simp [this.1]
        simp only [hsp0, ne_eq, not_false_eq_true, if_true]
        have hset : st.s.set st.sp 10
            = joinLines [10] Ls ++ c1 ++ 10 :: (c2 ++ c :: rest) := by
          have : st.sp = (joinLines [10] Ls ++ c1).length := by simp [hspv]
          have h1 : joinLines [10] Ls ++ (c1 ++ 32 :: c2) ++ c :: rest
              = (joinLines [10] Ls ++ c1) ++ 32 :: (c2 ++ c :: rest) := by simp
          rw [hs, hcl, this, h1]
          exact set_at_length _ _ _ _
        refine ⟨Ls ++ [c1], c2 ++ [c], ?_, ?_, ?_, ?_, ?_⟩
        · simp [joinLines_append, hcl]
        · simp [joinLines_append, hset]
        · intro L hL
          rcases List.mem_append.1 hL with h | h
          · exact hLs L h
          · simp at h; subst h
            left
            have : cl.length = L.length + 1 + c2.length := by rw [hcl]; simp; omega
            omega
        · left
          have hl : cl.length = c1.length + 1 + c2.length := by rw [hcl]; simp; omega
          constructor
          · simp; omega
          · simp; omega
        · left
          refine ⟨?_, ?_⟩
          · intro hmem
            rcases List.mem_append.1 hmem with h | h
            · exact hc2 h
            · simp at h; exact hc32 h.symm
          · simp [joinLines_append]; omega
    · simp only [hbig, if_false]
      have hA : st.sz = cl.length ∧ st.sz ≤ n := by
        rcases hmode with h | ⟨_, _, h3⟩
        · exact h
        · exfalso; omega
      refine ⟨Ls, cl ++ [c], by simp, by simp [hs], hLs, ?_, ?_⟩
      · left; constructor
        · simp; omega
        · omega
      · rcases hsp with ⟨hno, hspv⟩ | ⟨c1, c2, hcl, hc2, hspv⟩
        · left
          refine ⟨?_, hspv⟩
          intro hmem
          rcases List.mem_append.1 hmem with h | h
          · exact hno h
          · simp at h; exact hc32 h.symm
        · right
          refine ⟨c1, c2 ++ [c], by simp [hcl], ?_, hspv⟩
          intro hmem
          rcases List.mem_append.1 hmem with h | h
          · exact hc2 h
          · simp at h; exact hc32 h.symm

theorem wrapInv_fold (n : Int) (s0 : List Nat) (h10 : 10 ∉ s0) (hhead : s0.head? ≠ some 32) :
    ∀ k, k ≤ s0.length →
      WrapInv n s0 k ((List.range k).foldl (wordWrapStep n) { s := s0, sp := 0, sz := 0 }) := by
  intro k
  induction k with
  | zero => intro _; simpa using wrapInv_init n s0
  | succ k ih =>
    intro hk
    rw [List.range_succ, List.foldl_append]
    exact wrapInv_step n s0 h10 hhead k (by omega) _ (ih (by omega))

/-- What `wordWrapBytes` does to an input without newline bytes that does not
begin with a space: it cuts the input at some of its spaces into lines and
puts a newline for each of these spaces; a line has at most `n` bytes or no
space. -/
theorem wordWrapBytes_decomp (n : Int) (s0 : List Nat) (h10 : 10 ∉ s0)
    (hhead : s0.head? ≠ some 32) :
    ∃ (Ls : List (List Nat)) (cl : List Nat),
      s0 = joinLines [32] Ls ++ cl ∧
      wordWrapBytes s0 n = joinLines [10] Ls ++ cl ∧
      ∀ L ∈ Ls ++ [cl], (L.length : Int) ≤ n ∨ 32 ∉ L := by
  obtain ⟨Ls, cl, htake, hs, hLs, hmode, _⟩ := wrapInv_fold n s0 h10 hhead s0.length (le_refl _)
  refine ⟨Ls, cl, by simpa using htake, by simpa [wordWrapBytes] using hs, ?_⟩
  intro L hL
  rcases List.mem_append.1 hL with h | h
  · exact hLs L h
  · simp at h; subst h
    rcases hmode with ⟨h1, h2⟩ | ⟨h1, _, _⟩
    · left; omega
    · right; exact h1

/-! ## Whitespace collapsing and trimming -/

theorem collapseWs_cons_ws (b : Bool) (c : Nat) (cs : List Nat) (h : isSpaceByte c = true) :
    collapseWs b (c :: cs) = if b = true then collapseWs true cs else 32 :: collapseWs true cs := by
  simp [collapseWs, h]

theorem collapseWs_cons_other (b : Bool) (c : Nat) (cs : List Nat) (h : isSpaceByte c = false) :
    collapseWs b (c :: cs) = c :: collapseWs false cs := by
  simp [collapseWs, h]

theorem collapseWs_mem : ∀ (l : List Nat) (b : Bool) (c : Nat),
    c ∈ collapseWs b l → (isSpaceByte c = true → c = 32) ∧ (isSpaceByte c = false → c ∈ l) := by
  intro l
  induction l with
  | nil => intro b c h; simp [collapseWs] at h
  | cons x xs ih =>
    intro b c h
    by_cases hx : isSpaceByte x = true
    · rw [collapseWs_cons_ws b x xs hx] at h
      cases b with
      | true =>
        simp only [if_true] at h
        have := ih true c h
        exact ⟨this.1, fun hc => List.mem_cons_of_mem _ (this.2 hc)⟩
      | false =>
        simp only [Bool.false_eq_true, if_false, List.mem_cons] at h
        rcases h with h | h
        · subst h; exact ⟨fun _ => rfl, fun hc => by simp [isSpaceByte] at hc⟩
        · have := ih true c h
          exact ⟨this.1, fun hc => List.mem_cons_of_mem _ (this.2 hc)⟩
    · simp only [Bool.not_eq_true] at hx
      rw [collapseWs_cons_other b x xs hx, List.mem_cons] at h
      rcases h with h | h
      · subst h
        exact ⟨fun hc => by simp [hx] at hc, fun _ => List.mem_cons_self _ _⟩
      · have := ih false c h
        exact ⟨this.1, fun hc => List.mem_cons_of_mem _ (this.2 hc)⟩

theorem collapseWs_noAdjacent : ∀ (l : List Nat) (b : Bool),
    NoAdjacentWs (collapseWs b l) ∧
      (b = true → ∀ c, (collapseWs b l).head? = some c → isSpaceByte c = false) := by
  intro l
  induction l with
  | nil => intro b; simp [collapseWs, NoAdjacentWs]
  | cons x xs ih =>
    intro b
    by_cases hx : isSpaceByte x = true
    · rw [collapseWs_cons_ws b x xs hx]
      cases b with
      | true => exact ih true
      | false =>
        simp only [Bool.false_eq_true, if_false]
        refine ⟨?_, by simp⟩
        unfold NoAdjacentWs
        rw [List.chain'_cons']
        refine ⟨?_, (ih true).1⟩
        intro y hy
        have := (ih true).2 rfl y (by simpa using hy)
        simp [this]
    · simp only [Bool.not_eq_true] at hx
      rw [collapseWs_cons_other b x xs hx]
      refine ⟨?_, ?_⟩
      · unfold NoAdjacentWs
        rw [List.chain'_cons']
        refine ⟨?_, (ih false).1⟩
        intro y _
        simp [hx]
      · intro _ c hc
        simp at hc; subst hc
        exact hx

theorem collapseWs_id : ∀ (l : List Nat) (b : Bool),
    (∀ c ∈ l, isSpaceByte c = true → c = 32) → NoAdjacentWs l →
    (b = true → ∀ c, l.head? = some c → isSpaceByte c = false) →
    collapseWs b l = l := by
  intro l
  induction l with
  | nil => intro b _ _ _; rfl
  | cons x xs ih =>
    intro b h32 hadj hb
    unfold NoAdjacentWs at hadj
    rw [List.chain'_cons'] at hadj
    have h32' : ∀ c ∈ xs, isSpaceByte c = true → c = 32 :=
      fun c hc => h32 c (List.mem_cons_of_mem _ hc)
    by_cases hx : isSpaceByte x = true
    · cases b with
      | true => exact absurd (hb rfl x rfl) (by simp [hx])
      | false =>
        have hx32 := h32 x (List.mem_cons_self _ _) hx
        have := ih true h32' hadj.2 (by
          intro _ c hc
          have := hadj.1 c (by simpa using hc)
          simpa [hx] using this)
        rw [collapseWs_cons_ws false x xs hx, this, hx32]
        simp
    · simp only [Bool.not_eq_true] at hx
      have := ih false h32' hadj.2 (by simp)
      rw [collapseWs_cons_other b x xs hx, this]

theorem collapseWs_alike : ∀ (a b : List Nat), List.Forall₂ alike a b → ∀ f : Bool,
    collapseWs f a = collapseWs f b := by
  intro a b h
  induction h with
  | nil => intro f; rfl
  | cons hxy _ ih =>
    intro f
    rcases hxy with rfl | ⟨hx, hy⟩
    · simp [collapseWs, ih]
    · simp [collapseWs, hx, hy, ih]

theorem collapseWs_replaceNewlines : ∀ (l : List Nat) (b : Bool),
    collapseWs b (replaceNewlines l) = collapseWs b l := by
  intro l
  induction l with
  | nil => intro b; rfl
  | cons c cs ih =>
    intro b
    have h32 : isSpaceByte 32 = true := by decide
    have h10 : isSpaceByte 10 = true := by decide
    by_cases hc : c = 10
    · subst hc
      cases b <;> simp [replaceNewlines, collapseWs, h32, h10, ih]
    · by_cases hs : isSpaceByte c = true
      · cases b <;> simp [replaceNewlines, collapseWs, hc, hs, ih]
      · simp [replaceNewlines, collapseWs, hc, hs, ih]

theorem trimSpaces_part (l : List Nat) : trimSpaces l <:+: l := by
  have h1 : trimSpaces l <+: l.dropWhile (fun c => c == 32) := List.rdropWhile_prefix _ _
  have h2 : l.dropWhile (fun c => c == 32) <:+ l := List.dropWhile_suffix _
  exact List.IsInfix.trans h1.isInfix h2.isInfix

theorem trimSpaces_head (l : List Nat) : (trimSpaces l).head? ≠ some 32 := by
  intro h
  have hne : trimSpaces l ≠ [] := by intro h0; rw [h0] at h; simp at h
  have hpre : trimSpaces l <+: l.dropWhile (fun c => c == 32) := List.rdropWhile_prefix _ _
  obtain ⟨t, ht⟩ := hpre
  have hd := List.head?_dropWhile_not (fun c => c == 32) l
  rw [← ht] at hd
  cases htl : trimSpaces l with
  | nil => exact hne htl
  | cons x xs =>
    rw [htl] at h hd
    simp at h hd
    exact hd h

theorem trimSpaces_last (l : List Nat) : (trimSpaces l).getLast? ≠ some 32 := by
  intro h
  have hne : trimSpaces l ≠ [] := by intro h0; rw [h0] at h; simp at h
  have := List.rdropWhile_last_not (fun c => c == 32) (l.dropWhile (fun c => c == 32)) hne
  rw [List.getLast?_eq_getLast _ hne] at h
  simp only [Option.some.injEq] at h
  apply this
  simp only [trimSpaces] at h
  simp [h]

theorem trimSpaces_id (l : List Nat) (hh : l.head? ≠ some 32) (hl : l.getLast? ≠ some 32) :
    trimSpaces l = l := by
  have h1 : l.dropWhile (fun c => c == 32) = l := by
    rw [List.dropWhile_eq_self_iff]
    intro hpos
    cases l with
    | nil => simp at hpos
    | cons x xs => simpa using hh
  unfold trimSpaces
  rw [h1, List.rdropWhile_eq_self_iff]
  intro hne
  rw [List.getLast?_eq_getLast _ hne] at hl
  simpa using hl

/-! ## The shape of the output of `wrapText` -/

theorem wrapText_eq (sw : Int) (text : List Nat) (width : Int) :
    wrapText sw text width
      = replaceNewlines (wordWrapBytes (normalized text) (reflowWidth sw width)) := rfl

theorem normalized_ws (text : List Nat) :
    ∀ c ∈ normalized text, isSpaceByte c = true → c = 32 := by
  intro c hc
  have : c ∈ collapseWs false text := (trimSpaces_part _).subset hc
  exact (collapseWs_mem text false c this).1

theorem normalized_noAdjacent (text : List Nat) : NoAdjacentWs (normalized text) :=
  List.Chain'.infix (collapseWs_noAdjacent text false).1 (trimSpaces_part _)

theorem normalized_no_newline (text : List Nat) : 10 ∉ normalized text := by
  intro h
  have := normalized_ws text 10 h (by decide)
  omega

theorem alike_refl (l : List Nat) : List.Forall₂ alike l l := by
  induction l with
  | nil => exact List.Forall₂.nil
  | cons x xs ih => exact List.Forall₂.cons (Or.inl rfl) ih

theorem alike_append (a b : List Nat) (h : List.Forall₂ alike a b) (c : List Nat) :
    ∀ (p : List Nat), List.Forall₂ alike (p ++ a) (p ++ b) ∧
      List.Forall₂ alike (a ++ c) (b ++ c) := by
  intro p
  constructor
  · induction p with
    | nil => exact h
    | cons x xs ih => exact List.Forall₂.cons (Or.inl rfl) ih
  · induction h with
    | nil => exact alike_refl c
    | cons hxy _ ih => exact List.Forall₂.cons hxy ih

theorem alike_joinLines (Ls : List (List Nat)) (cl : List Nat) :
    List.Forall₂ alike (joinLines [32] Ls ++ cl) (joinLines [10] Ls ++ cl) := by
  induction Ls with
  | nil => exact alike_refl _
  | cons K Ks ih =>
    have h1 : List.Forall₂ alike (32 :: (joinLines [32] Ks ++ cl)) (10 :: (joinLines [10] Ks ++ cl)) :=
      List.Forall₂.cons (Or.inr ⟨by decide, by decide⟩) ih
    have := (alike_append _ _ h1 [] K).1
    simpa [joinLines] using this

theorem replaceNewlines_append (a b : List Nat) :
    replaceNewlines (a ++ b) = replaceNewlines a ++ replaceNewlines b := by
  induction a with
  | nil => rfl
  | cons x xs ih =>
    by_cases hx : x = 10
    · simp [replaceNewlines, hx, ih]
    · simp [replaceNewlines, hx, ih]

theorem replaceNewlines_of_not_mem (a : List Nat) (h : 10 ∉ a) : replaceNewlines a = a := by
  induction a with
  | nil => rfl
  | cons x xs ih =>
    have hx : x ≠ 10 := fun hx => h (by simp [hx])
    have hxs : 10 ∉ xs := fun hm => h (List.mem_cons_of_mem _ hm)
    simp [replaceNewlines, hx, ih hxs]

theorem replaceNewlines_joinLines (Ls : List (List Nat)) (cl : List Nat)
    (h : ∀ L ∈ Ls ++ [cl], 10 ∉ L) :
    replaceNewlines (joinLines [10] Ls ++ cl) = joinLines [32, 10] Ls ++ cl := by
  induction Ls with
  | nil => simpa [joinLines] using replaceNewlines_of_not_mem cl (h cl (by simp))
  | cons K Ks ih =>
    have hK : 10 ∉ K := h K (by simp)
    have := ih (fun L hL => h L (by
      rcases List.mem_append.1 hL with h1 | h1
      · exact List.mem_append_left _ (List.mem_cons_of_mem _ h1)
      · exact List.mem_append_right _ h1))
    simp only [joinLines, List.append_assoc, replaceNewlines_append,
      replaceNewlines_of_not_mem K hK]
    rw [← replaceNewlines_append, this]
    simp [replaceNewlines]

theorem lines_joinLines (Ls : List (List Nat)) (cl : List Nat)
    (h : ∀ L ∈ Ls ++ [cl], 10 ∉ L) :
    lines (joinLines [32, 10] Ls ++ cl) = Ls.map (fun L => L ++ [32]) ++ [cl] := by
  induction Ls with
  | nil =>
    have : ∀ x ∈ cl, ¬ ((fun c => c == 10) x = true) := by
      intro x hx hx10
      simp at hx10; subst hx10
      exact h cl (by simp) hx
    simpa [joinLines, lines] using List.splitOnP_eq_single _ cl this
  | cons K Ks ih =>
    have hK : 10 ∉ K := h K (by simp)
    have hrec := ih (fun L hL => h L (by
      rcases List.mem_append.1 hL with h1 | h1
      · exact List.mem_append_left _ (List.mem_cons_of_mem _ h1)
      · exact List.mem_append_right _ h1))
    have hfirst := List.splitOnP_first (fun c => c == 10) (K ++ [32])
      (by
        intro x hx hx10
        simp at hx10; subst hx10
        rcases List.mem_append.1 hx with h1 | h1
        · exact hK h1
        · simp at h1)
      10 (by simp) (joinLines [32, 10] Ks ++ cl)
    unfold lines at hrec ⊢
    have heq : joinLines [32, 10] (K :: Ks) ++ cl
        = (K ++ [32]) ++ 10 :: (joinLines [32, 10] Ks ++ cl) := by simp [joinLines]
    rw [heq, hfirst, hrec]
    simp

theorem wrapText_decomp (sw : Int) (text : List Nat) (width : Int) :
    ∃ (Ls : List (List Nat)) (cl : List Nat),
      normalized text = joinLines [32] Ls ++ cl ∧
      wordWrapBytes (normalized text) (reflowWidth sw width) = joinLines [10] Ls ++ cl ∧
      wrapText sw text width = joinLines [32, 10] Ls ++ cl ∧
      (∀ L ∈ Ls ++ [cl], (L.length : Int) ≤ reflowWidth sw width ∨ 32 ∉ L) ∧
      (∀ L ∈ Ls ++ [cl], 10 ∉ L) := by
  obtain ⟨Ls, cl, h1, h2, h3⟩ := wordWrapBytes_decomp (reflowWidth sw width) (normalized text)
    (normalized_no_newline text) (trimSpaces_head _)
  have hsub : ∀ L ∈ Ls ++ [cl], ∀ c ∈ L, c ∈ joinLines [32] Ls ++ cl := by
    intro L hL c hc
    clear h1 h2 h3
    induction Ls with
    | nil => simp at hL; subst hL; simpa [joinLines] using hc
    | cons K Ks ih =>
      simp only [List.cons_append, List.mem_cons] at hL
      rcases hL with hL | hL
      · subst hL; simp [joinLines, hc]
      · have := ih hL
        simp only [joinLines, List.append_assoc, List.mem_append]
        right; right
        simpa using this
  have h10 : ∀ L ∈ Ls ++ [cl], 10 ∉ L := by
    intro L hL hc
    exact normalized_no_newline text (h1 ▸ hsub L hL 10 hc)
  exact ⟨Ls, cl, h1, h2, by rw [wrapText_eq, h2, replaceNewlines_joinLines Ls cl h10], h3, h10⟩

/-! ## Reflow: line lengths (C2), idempotence (C3), words (C4) -/

theorem runeCountLoop_le (k : Nat) : ∀ s : List Nat, runeCountLoop k s ≤ k := by
  induction k with
  | zero => intro s; simp [runeCountLoop]
  | succ k ih =>
    intro s
    cases s with
    | nil => simp [runeCountLoop]
    | cons c rest =>
      simp only [runeCountLoop]
      have := ih ((c :: rest).drop (runeWidth c rest))
      omega

theorem runeCount_le_length (s : List Nat) : runeCount s ≤ s.length :=
  runeCountLoop_le s.length s

theorem mem_joinLines_of_mem (a : Nat) (Ls : List (List Nat)) (cl L : List Nat)
    (hL : L ∈ Ls ++ [cl]) (c : Nat) (hc : c ∈ L) : c ∈ joinLines [a] Ls ++ cl := by
  induction Ls with
  | nil => simp at hL; subst hL; simpa [joinLines] using hc
  | cons K Ks ih =>
    simp only [List.cons_append, List.mem_cons] at hL
    rcases hL with hL | hL
    · subst hL; simp [joinLines, hc]
    · have := ih hL
      simp only [joinLines, List.append_assoc, List.mem_append]
      right; right
      simpa using this

theorem mem_fields_joinLines (Ls : List (List Nat)) (cl L : List Nat)
    (hL : L ∈ Ls ++ [cl]) (hws : ∀ c ∈ L, isSpaceByte c = false) (hne : L ≠ []) :
    L ∈ fields (joinLines [32] Ls ++ cl) := by
  have hword : fields L = [L] := by
    rw [fields_word L hws]
    cases L with
    | nil => exact absurd rfl hne
    | cons x xs => simp
  induction Ls with
  | nil =>
    simp at hL; subst hL
    simp [joinLines, hword]
  | cons K Ks ih =>
    have heq : joinLines [32] (K :: Ks) ++ cl = K ++ 32 :: (joinLines [32] Ks ++ cl) := by
      simp [joinLines]
    rw [heq, fields_append_sep 32 (by decide)]
    simp only [List.cons_append, List.mem_cons] at hL
    rcases hL with hL | hL
    · subst hL; simp [hword]
    · exact List.mem_append_right _ (ih hL)

theorem fields_wrapText (sw : Int) (text : List Nat) (width : Int) :
    fields (wrapText sw text width) = fields text := by
  obtain ⟨Ls, cl, h1, h2, _, _, _⟩ := wrapText_decomp sw text width
  rw [wrapText_eq, fields_replaceNewlines, h2, fields_eq_aux,
    ← fieldsAux_alike _ _ (alike_joinLines Ls cl) [], ← fields_eq_aux, ← h1]
  unfold normalized
  rw [fields_trimSpaces, fields_collapseWs]

theorem normalized_wrapText (sw : Int) (text : List Nat) (width : Int) :
    normalized (wrapText sw text width) = normalized text := by
  obtain ⟨Ls, cl, h1, h2, _, _, _⟩ := wrapText_decomp sw text width
  have hcol : collapseWs false (wrapText sw text width) = normalized text := by
    rw [wrapText_eq, collapseWs_replaceNewlines, h2,
      ← collapseWs_alike _ _ (alike_joinLines Ls cl) false, ← h1]
    exact collapseWs_id _ false (normalized_ws text) (normalized_noAdjacent text) (by simp)
  unfold normalized at hcol ⊢
  rw [hcol]
  exact trimSpaces_id _ (trimSpaces_head _) (trimSpaces_last _)

/-- C2, as amended. For every text and every width `w` with `1 ≤ w` that does
not exceed the screen width, the lines of `wrapText text w` are: every line
but the last a piece `L` followed by the one space that `wrapText` leaves in
front of the line break, and the last line a piece `L` itself; and each such
piece `L` has at most `w` code points or is a single word of the input (which
is then longer than `w` and stands unbroken on its line). -/
theorem wrapText_line_bound (sw : Int) (text : List Nat) (w : Int)
    (hw : 1 ≤ w) (hsw : w ≤ sw) :
    ∃ (body : List (List Nat)) (last : List Nat),
      lines (wrapText sw text w) = body.map (fun L => L ++ [32]) ++ [last] ∧
      ∀ L ∈ body ++ [last], (runeCount L : Int) ≤ w ∨ L ∈ fields text := by
  obtain ⟨Ls, cl, h1, _, h3, h4, h5⟩ := wrapText_decomp sw text w
  have hwsz : reflowWidth sw w = w := by simp [reflowWidth]; omega
  rw [hwsz] at h4
  refine ⟨Ls, cl, by rw [h3, lines_joinLines Ls cl h5], ?_⟩
  intro L hL
  rcases h4 L hL with hlen | hno
  · left
    have := runeCount_le_length L
    omega
  · by_cases hshort : (L.length : Int) ≤ w
    · left
      have := runeCount_le_length L
      omega
    · right
      have hsub : ∀ c ∈ L, c ∈ normalized text := by
        intro c hc
        rw [h1]
        exact mem_joinLines_of_mem 32 Ls cl L hL c hc
      have hws : ∀ c ∈ L, isSpaceByte c = false := by
        intro c hc
        by_contra hcon
        simp only [Bool.not_eq_false] at hcon
        have := normalized_ws text c (hsub c hc) hcon
        subst this
        exact hno hc
      have hne : L ≠ [] := by
        intro h0; subst h0; simp at hshort; omega
      have hmem := mem_fields_joinLines Ls cl L hL hws hne
      rw [← h1] at hmem
      unfold normalized at hmem
      rwa [fields_trimSpaces, fields_collapseWs] at hmem

/-- A witness of `wrapText_line_bound`: the text "the quick brown fox" at
width 10 on a screen 80 wide. -/
theorem wrapText_line_bound_witness :
    ∃ (body : List (List Nat)) (last : List Nat),
      lines (wrapText 80 (bytes "the quick brown fox") 10)
        = body.map (fun L => L ++ [32]) ++ [last] ∧
      ∀ L ∈ body ++ [last],
        (runeCount L : Int) ≤ 10 ∨ L ∈ fields (bytes "the quick brown fox") :=
  wrapText_line_bound 80 (bytes "the quick brown fox") 10 (by decide) (by decide)

/-- C2 as stated fails: "abcde fgh" wrapped at width 5 on a screen 80 wide is
"abcde \nfgh"; its first line, every character counted, has 6 code points,
and it holds no word longer than 5 (the input has none). -/
theorem wrapText_line_bound_counterexample :
    wrapText 80 (bytes "abcde fgh") 5 = bytes "abcde \nfgh" ∧
    ¬ (∀ L ∈ lines (wrapText 80 (bytes "abcde fgh") 5),
        (runeCount L : Int) ≤ 5 ∨
          ∃ wd ∈ fields (bytes "abcde fgh"), (5 : Int) < runeCount wd ∧ wd <:+: L) := by
  refine ⟨by decide, ?_⟩
  intro h
  have hmem : bytes "abcde " ∈ lines (wrapText 80 (bytes "abcde fgh") 5) := by decide
  rcases h _ hmem with h1 | ⟨wd, hwd, hlong, _⟩
  · revert h1; decide
  · have hall : ∀ v ∈ fields (bytes "abcde fgh"), ¬ ((5 : Int) < runeCount v) := by decide
    exact hall wd hwd hlong

/-- C3. Reflow is idempotent at a fixed width and screen width: wrapping the
output of `wrapText` again gives the same output. -/
theorem wrapText_idempotent (sw : Int) (text : List Nat) (w : Int) :
    wrapText sw (wrapText sw text w) w = wrapText sw text w := by
  rw [wrapText_eq sw (wrapText sw text w) w, normalized_wrapText, ← wrapText_eq]

theorem alike_ws {a b : Nat} (h : alike a b) : isSpaceByte b = true → isSpaceByte a = true := by
  intro hb
  rcases h with rfl | ⟨ha, _⟩
  · exact hb
  · exact ha

theorem noAdjacentWs_alike : ∀ (a b : List Nat), List.Forall₂ alike a b →
    NoAdjacentWs a → NoAdjacentWs b := by
  intro a b h
  induction h with
  | nil => intro _; simp [NoAdjacentWs]
  | @cons x y xs ys hxy hrest ih =>
    intro hadj
    unfold NoAdjacentWs at hadj ⊢
    rw [List.chain'_cons'] at hadj ⊢
    refine ⟨?_, ih hadj.2⟩
    intro y2 hy2 hboth
    cases hrest with
    | nil => simp at hy2
    | @cons x2 _ _ _ hx2 _ =>
      simp at hy2; subst hy2
      exact hadj.1 x2 (by simp) ⟨alike_ws hxy hboth.1, alike_ws hx2 hboth.2⟩

theorem replaceNewlines_head (l : List Nat) (h : (replaceNewlines l).head? = some 32) :
    ∃ d, l.head? = some d ∧ isSpaceByte d = true := by
  cases l with
  | nil => simp [replaceNewlines] at h
  | cons x xs =>
    by_cases hx : x = 10
    · exact ⟨x, rfl, by subst hx; decide⟩
    · simp [replaceNewlines, hx] at h
      exact ⟨x, rfl, by subst h; decide⟩

theorem replaceNewlines_noAdjacent (l : List Nat) (h : NoAdjacentWs l) :
    List.Chain' (fun a b => ¬ (a = 32 ∧ b = 32)) (replaceNewlines l) := by
  induction l with
  | nil => simp [replaceNewlines]
  | cons x xs ih =>
    unfold NoAdjacentWs at h
    rw [List.chain'_cons'] at h
    have ih' := ih h.2
    by_cases hx : x = 10
    · simp only [replaceNewlines, hx, if_true]
      rw [List.chain'_cons', List.chain'_cons']
      refine ⟨by simp, ?_, ih'⟩
      intro y _; simp
    · simp only [replaceNewlines, hx, if_false]
      rw [List.chain'_cons']
      refine ⟨?_, ih'⟩
      intro y hy hboth
      obtain ⟨d, hd, hdws⟩ := replaceNewlines_head xs (by simpa [hboth.2] using hy)
      exact h.1 d (by simp [hd]) ⟨by rw [hboth.1]; decide, hdws⟩

theorem head_joinLines (a : Nat) (sep : List Nat) (Ls : List (List Nat)) (cl : List Nat) :
    (joinLines (a :: sep) Ls ++ cl).head? = (joinLines [a] Ls ++ cl).head? := by
  cases Ls with
  | nil => rfl
  | cons K Ks =>
    cases K with
    | nil => simp [joinLines]
    | cons x xs => simp [joinLines]

/-- C4. Reflow changes only whitespace: the words of `wrapText text w` (the
non-empty pieces between space, tab, newline, carriage return and form feed)
are the words of the input, in the same order; the output neither begins nor
ends with whitespace and has no two adjacent spaces. -/
theorem wrapText_words (sw : Int) (text : List Nat) (w : Int) :
    fields (wrapText sw text w) = fields text ∧
    (∀ c, (wrapText sw text w).head? = some c → isSpaceByte c = false) ∧
    (∀ c, (wrapText sw text w).getLast? = some c → isSpaceByte c = false) ∧
    List.Chain' (fun a b => ¬ (a = 32 ∧ b = 32)) (wrapText sw text w) := by
  obtain ⟨Ls, cl, h1, h2, h3, _, _⟩ := wrapText_decomp sw text w
  have hhead : (normalized text).head? ≠ some 32 := trimSpaces_head _
  have hlast : (normalized text).getLast? ≠ some 32 := trimSpaces_last _
  have hnows : ∀ c ∈ normalized text, c ≠ 32 → isSpaceByte c = false := by
    intro c hc hne
    by_contra hcon
    simp only [Bool.not_eq_false] at hcon
    exact hne (normalized_ws text c hc hcon)
  refine ⟨fields_wrapText sw text w, ?_, ?_, ?_⟩
  · intro c hc
    rw [h3, head_joinLines 32 [10] Ls cl, ← h1] at hc
    have hmem : c ∈ normalized text := List.mem_of_mem_head? hc
    exact hnows c hmem (fun h32 => hhead (by rw [hc, h32]))
  · intro c hc
    rw [h3] at hc
    by_cases hcl : cl = []
    · subst hcl
      by_cases hLs : Ls = []
      · subst hLs; simp [joinLines] at hc
      · exfalso
        obtain ⟨P0, hP0⟩ := joinLines_eq_concat 32 Ls hLs
        apply hlast
        rw [h1, hP0]; simp
    · have hc' : cl.getLast? = some c := by
        rw [List.getLast?_append] at hc
        cases hg : cl.getLast? with
        | none => simp [List.getLast?_eq_none_iff] at hg; exact absurd hg hcl
        | some d => rw [hg] at hc; simpa using hc
      have hs0 : (normalized text).getLast? = some c := by
        rw [h1, List.getLast?_append, hc']; simp
      have hmem : c ∈ normalized text := List.mem_of_mem_getLast? hs0
      exact hnows c hmem (fun h32 => hlast (by rw [hs0, h32]))
  · rw [wrapText_eq]
    apply replaceNewlines_noAdjacent
    rw [h2]
    have := noAdjacentWs_alike _ _ (alike_joinLines Ls cl)
    rw [← h1] at this
    exact this (normalized_noAdjacent text)

/-! ## Statistics (C5) -/

theorem countStats_eq (text typed : List Rune) :
    ∀ k, k ≤ text.length → k ≤ typed.length →
      countStats text typed k = some (countWrong text typed k, countCorrect text typed k) := by
  intro k
  induction k with
  | zero => intro _ _; simp [countStats, countWrong, countCorrect]
  | succ k ih =>
    intro h1 h2
    have hprev := ih (by omega) (by omega)
    unfold countStats at hprev ⊢
    rw [List.range_succ, List.foldlM_append, hprev]
    obtain ⟨x, ht⟩ : ∃ x, text[k]? = some x := ⟨text[k], List.getElem?_eq_getElem (by omega)⟩
    obtain ⟨y, hy⟩ : ∃ y, typed[k]? = some y := ⟨typed[k], List.getElem?_eq_getElem (by omega)⟩
    simp only [countWrong, countCorrect, List.range_succ, List.countP_append, List.countP_cons,
      List.countP_nil, ht, hy]
    by_cases hnl : x = 10
    · simp [hnl, ht, hy]
    · by_cases heq : x = y
      · subst heq; simp [hnl, ht, hy]
      · have heq' : ¬ y = x := fun h => heq h.symm
        simp [hnl, heq, heq', ht, hy]

theorem calcStats_eq (st : PlayState) (now : Int) (hidx : st.idx ≤ st.text.length)
    (hty : st.idx ≤ st.typed.length) :
    calcStats st now = some { st with
      nerrs := countWrong st.text st.typed st.idx,
      ncorrect := countCorrect st.text st.typed st.idx,
      mistakes := specMistakes (st.text.take st.idx) (st.typed.take st.idx),
      rc := GoTypeComplete,
      duration := since st.startTime now } := by
  have h1 : extractMistypedWords (st.text.take st.idx) (st.typed.take st.idx)
      = some (specMistakes (st.text.take st.idx) (st.typed.take st.idx)) := by
    have := extractLoop_eq (st.typed.take st.idx) (st.text.take st.idx) 0 [] []
      (by simp) (by simp; omega)
    simpa [extractMistypedWords, specMistakes_eq] using this
  have h2 := countStats_eq st.text st.typed st.idx hidx hty
  have h3 : st.idx ≤ st.text.length ∧ st.idx ≤ st.typed.length := ⟨hidx, hty⟩
  simp [calcStats, h1, h2, h3]

theorem countP_range_congr (p q : Nat → Bool) (k : Nat) (h : ∀ i, i < k → p i = q i) :
    (List.range k).countP p = (List.range k).countP q := by
  induction k with
  | zero => rfl
  | succ k ih =>
    rw [List.range_succ, List.countP_append, List.countP_append,
      ih (fun i hi => h i (by omega))]
    simp [List.countP_cons, h k (by omega)]

theorem getElem?_of_take_eq {a b : List Rune} {k i : Nat} (h : a.take k = b.take k)
    (hi : i < k) : a[i]? = b[i]? := by
  have := congrArg (fun l => l[i]?) h
  simpa [List.getElem?_take, hi] using this

/-- C5. For a cursor within the text (and within the typed buffer, which
`play` makes as long as the text) `calcStats` returns, without a panic,
`ncorrect` = the number of positions below the cursor whose target is no
newline and whose typed rune equals the target, and `nerrs` = the number of
those whose typed rune differs; so `nerrs + ncorrect` is the number of
non-newline target positions below the cursor, and positions at or beyond the
cursor do not contribute: any text and buffer that agree with these below the
cursor give the same counts. -/
theorem calcStats_counts (st : PlayState) (now : Int) (hidx : st.idx ≤ st.text.length)
    (hty : st.idx ≤ st.typed.length) :
    ∃ st1, calcStats st now = some st1 ∧
      st1.ncorrect = countCorrect st.text st.typed st.idx ∧
      st1.nerrs = countWrong st.text st.typed st.idx ∧
      st1.nerrs + st1.ncorrect = countTargets st.text st.idx ∧
      ∀ text2 typed2 : List Rune,
        text2.take st.idx = st.text.take st.idx →
        typed2.take st.idx = st.typed.take st.idx →
        countCorrect text2 typed2 st.idx = st1.ncorrect ∧
        countWrong text2 typed2 st.idx = st1.nerrs := by
  refine ⟨_, calcStats_eq st now hidx hty, rfl, rfl, ?_, ?_⟩
  · simp only [countWrong, countCorrect, countTargets]
    generalize st.idx = k
    induction k with
    | zero => rfl
    | succ k ih =>
      simp only [List.range_succ, List.countP_append, List.countP_cons, List.countP_nil]
      by_cases h1 : st.text[k]? = some 10
      · simp [h1]; omega
      · by_cases h2 : st.typed[k]? = st.text[k]?
        · simp [h1, h2]; omega
        · simp [h1, h2]; omega
  · intro text2 typed2 ht hy
    constructor
    · exact countP_range_congr _ _ _ (fun i hi => by
        simp [getElem?_of_take_eq ht hi, getElem?_of_take_eq hy hi])
    · exact countP_range_congr _ _ _ (fun i hi => by
        simp [getElem?_of_take_eq ht hi, getElem?_of_take_eq hy hi])

/-- A witness of `calcStats_counts`: target "ab\ncd" with "ax", the newline and
"c" in the buffer and the cursor at 4 has two correct positions and one wrong. -/
theorem calcStats_counts_witness :
    ∃ st1, calcStats
        { text := runes "ab\ncd", typed := [97, 120, 10, 99, 0], idx := 4, startTime := some 0,
          nerrs := 0, ncorrect := 0, rc := 0, duration := 0, mistakes := [] } 5 = some st1 ∧
      st1.ncorrect = 2 ∧ st1.nerrs = 1 := by
  obtain ⟨st1, h1, h2, h3, _, _⟩ := calcStats_counts
    { text := runes "ab\ncd", typed := [97, 120, 10, 99, 0], idx := 4, startTime := some 0,
      nerrs := 0, ncorrect := 0, rc := 0, duration := 0, mistakes := [] } 5
    (by decide) (by decide)
  exact ⟨st1, h1, by rw [h2]; decide, by rw [h3]; decide⟩

/-! ## The event loop: scripts, redraw -/

theorem redraw_some_of_some (cfg : Config) (st : PlayState) (a b : Int)
    (h : redraw cfg st a ≠ none) : ∃ st1, redraw cfg st b = some st1 ∧
      st1.text = st.text ∧ st1.typed = st.typed ∧ st1.idx = st.idx ∧
      st1.startTime = st.startTime := by
  unfold redraw at h ⊢
  by_cases hall : ((List.range st.text.length).all
      (fun i => st.text[i]? == some 10 || decide (st.idx ≤ i) || decide (i < st.typed.length)))
      = true
  · rw [if_pos hall] at h ⊢
    by_cases hshow : cfg.ShowWpm = true ∧ st.startTime ≠ none
    · rw [if_pos hshow] at h ⊢
      unfold calcStats at h ⊢
      by_cases hidx : st.idx ≤ st.text.length ∧ st.idx ≤ st.typed.length
      · rw [if_pos hidx] at h ⊢
        cases hex : extractMistypedWords (List.take st.idx st.text) (List.take st.idx st.typed) with
        | none => rw [hex] at h; exact absurd rfl h
        | some ms =>
          rw [hex] at h
          cases hcs : countStats st.text st.typed st.idx with
          | none => rw [hcs] at h; exact absurd rfl h
          | some ec => exact ⟨_, rfl, rfl, rfl, rfl, rfl⟩
      · rw [if_neg hidx] at h; exact absurd rfl h
    · rw [if_neg hshow]
      exact ⟨st, rfl, rfl, rfl, rfl, rfl⟩
  · rw [if_neg hall] at h; exact absurd rfl h

theorem playLoop_append (cfg : Config) (timeLimit : Int) :
    ∀ (pre : List Input) (st st1 : PlayState) (more : List Input),
      playLoop cfg timeLimit st pre = PlayOutcome.waiting st1 →
      playLoop cfg timeLimit st (pre ++ more) = playLoop cfg timeLimit st1 more ∧
      redraw cfg st1 0 ≠ none := by
  intro pre
  induction pre with
  | nil =>
    intro st st1 more h
    simp only [playLoop] at h
    cases hr : redraw cfg st 0 with
    | none => simp [hr] at h
    | some s =>
      simp only [hr, PlayOutcome.waiting.injEq] at h
      subst h
      exact ⟨rfl, by simp [hr]⟩
  | cons inp pre ih =>
    intro st st1 more h
    simp only [playLoop, List.cons_append] at h ⊢
    cases hr : redraw cfg st inp.drawn with
    | none => simp [hr] at h
    | some s =>
      simp only [hr] at h ⊢
      cases hh : handleEvent cfg timeLimit s inp with
      | none => simp [hh] at h
      | some step =>
        cases step with
        | returned s2 => simp [hh] at h
        | running s2 =>
          simp only [hh] at h ⊢
          exact ih s2 st1 more h

theorem handleEvent_ctrlC (cfg : Config) (timeLimit : Int) (st : PlayState) (inp : Input)
    (r : Rune) (mods : Nat) (hev : inp.ev = Event.EventKey Key.KeyCtrlC r mods) :
    handleEvent cfg timeLimit st inp = some (Step.returned
      { (if st.startTime = none then { st with startTime := some inp.now } else st) with
        rc := GoTypeSigInt }) := by
  simp [handleEvent, hev]

theorem StartTestLoop_stop (cfg : Config) (timeout : Int) (starts : Nat → Int) (seg : segment)
    (segs : List segment) (idx : Nat) (timeLeft : Int) (acc : TestResult)
    (inputs : List Input) (r : PlayResult) (rest : List Input)
    (hplay : play cfg seg.Text timeLeft (if idx = 0 then false else true) (starts idx) inputs
      = PlayOutcome.returned r rest)
    (hrc : r.rc ≠ GoTypeComplete) :
    StartTestLoop cfg timeout starts (seg :: segs) idx timeLeft acc inputs
      = TestOutcome.returned (addResult acc r) rest := by
  simp only [StartTestLoop, hplay]
  split_ifs <;> rfl

/-! ## Cancellation (C9) -/

/-- C9. An interrupt key takes precedence in every state. (1) Whatever the
text, cursor, typed buffer, clock, time limit and mode flags, the event switch
of `play` answers a Ctrl-C key event by returning with outcome
`GoTypeSigInt`. (2) Hence whenever `play` is waiting for an event after a
script `pre` (for any segment of a test, with any time left), a Ctrl-C as
the next event makes it return `GoTypeSigInt` at once, the later events
unread, and `StartTest` returns with that same outcome and those same unread
events: it plays no further segment. -/
theorem interrupt_cancels :
    (∀ (cfg : Config) (timeLimit : Int) (st : PlayState) (inp : Input) (r : Rune) (mods : Nat),
      inp.ev = Event.EventKey Key.KeyCtrlC r mods →
      ∃ st1, handleEvent cfg timeLimit st inp = some (Step.returned st1) ∧
        st1.rc = GoTypeSigInt) ∧
    (∀ (cfg : Config) (timeout : Int) (starts : Nat → Int) (seg : segment)
      (segs : List segment) (idx : Nat) (timeLeft : Int) (acc : TestResult)
      (pre : List Input) (inp : Input) (rest : List Input) (st : PlayState)
      (r : Rune) (mods : Nat),
      inp.ev = Event.EventKey Key.KeyCtrlC r mods →
      play cfg seg.Text timeLeft (if idx = 0 then false else true) (starts idx) pre
        = PlayOutcome.waiting st →
      ∃ res : PlayResult,
        play cfg seg.Text timeLeft (if idx = 0 then false else true) (starts idx)
          (pre ++ inp :: rest) = PlayOutcome.returned res rest ∧
        res.rc = GoTypeSigInt ∧
        StartTestLoop cfg timeout starts (seg :: segs) idx timeLeft acc (pre ++ inp :: rest)
          = TestOutcome.returned (addResult acc res) rest ∧
        (addResult acc res).rc = GoTypeSigInt) := by
  constructor
  · intro cfg timeLimit st inp r mods hev
    exact ⟨_, handleEvent_ctrlC cfg timeLimit st inp r mods hev, rfl⟩
  · intro cfg timeout starts seg segs idx timeLeft acc pre inp rest st r mods hev hwait
    unfold play at hwait
    obtain ⟨happ, hred⟩ := playLoop_append cfg timeLeft pre _ st (inp :: rest) hwait
    obtain ⟨s1, hs1, _⟩ := redraw_some_of_some cfg st 0 inp.drawn hred
    have hplay : play cfg seg.Text timeLeft (if idx = 0 then false else true) (starts idx)
        (pre ++ inp :: rest) = PlayOutcome.returned
          (PlayState.result { (if s1.startTime = none then
              { s1 with startTime := some inp.now } else s1) with rc := GoTypeSigInt }) rest := by
      unfold play
      rw [happ]
      simp only [playLoop, hs1, handleEvent_ctrlC cfg timeLeft s1 inp r mods hev]
    exact ⟨_, hplay, rfl,
      StartTestLoop_stop cfg timeout starts seg segs idx timeLeft acc _ _ rest hplay
        (show GoTypeSigInt ≠ GoTypeComplete by decide),
      rfl⟩

/-- A witness of `interrupt_cancels`: target "ab cd", first of two segments
of a test with a 5-second budget; "ab c" has been typed, nine seconds have
passed (no tick has come yet) and the cursor is one character from the end
when Ctrl-C arrives. -/
theorem interrupt_cancels_witness :
    ∃ res : PlayResult,
      play ⟨true, false, false, false⟩ (runes "ab cd") 5000000000 false 0
        ([⟨Event.EventKey Key.KeyRune 97 0, 0, 0, 0⟩, ⟨Event.EventKey Key.KeyRune 98 0, 0, 0, 0⟩,
          ⟨Event.EventKey Key.KeyRune 32 0, 0, 0, 0⟩, ⟨Event.EventKey Key.KeyRune 99 0, 0, 0, 0⟩]
          ++ ⟨Event.EventKey Key.KeyCtrlC 0 0, 9000000000, 9000000000, 9000000000⟩
            :: [⟨Event.EventKey Key.KeyRune 100 0, 0, 0, 0⟩])
        = PlayOutcome.returned res [⟨Event.EventKey Key.KeyRune 100 0, 0, 0, 0⟩] ∧
      res.rc = GoTypeSigInt ∧
      StartTestLoop ⟨true, false, false, false⟩ 5000000000 (fun _ => 0)
        (⟨runes "ab cd", []⟩ :: [⟨runes "ef", []⟩]) 0 5000000000 ⟨0, 0, 0, 0, [], []⟩
        ([⟨Event.EventKey Key.KeyRune 97 0, 0, 0, 0⟩, ⟨Event.EventKey Key.KeyRune 98 0, 0, 0, 0⟩,
          ⟨Event.EventKey Key.KeyRune 32 0, 0, 0, 0⟩, ⟨Event.EventKey Key.KeyRune 99 0, 0, 0, 0⟩]
          ++ ⟨Event.EventKey Key.KeyCtrlC 0 0, 9000000000, 9000000000, 9000000000⟩
            :: [⟨Event.EventKey Key.KeyRune 100 0, 0, 0, 0⟩])
        = TestOutcome.returned (addResult ⟨0, 0, 0, 0, [], []⟩ res)
            [⟨Event.EventKey Key.KeyRune 100 0, 0, 0, 0⟩] ∧
      (addResult ⟨0, 0, 0, 0, [], []⟩ res).rc = GoTypeSigInt :=
  interrupt_cancels.2 ⟨true, false, false, false⟩ 5000000000
    (fun _ => 0) ⟨runes "ab cd", []⟩ [⟨runes "ef", []⟩] 0 5000000000 ⟨0, 0, 0, 0, [], []⟩
    [⟨Event.EventKey Key.KeyRune 97 0, 0, 0, 0⟩, ⟨Event.EventKey Key.KeyRune 98 0, 0, 0, 0⟩,
      ⟨Event.EventKey Key.KeyRune 32 0, 0, 0, 0⟩, ⟨Event.EventKey Key.KeyRune 99 0, 0, 0, 0⟩]
    ⟨Event.EventKey Key.KeyCtrlC 0 0, 9000000000, 9000000000, 9000000000⟩
    [⟨Event.EventKey Key.KeyRune 100 0, 0, 0, 0⟩]
    ⟨runes "ab cd", [97, 98, 32, 99, 0], 4, some 0, 0, 0, 0, 0, []⟩
    0 0 rfl (by decide)

/-! ## Timer tick (C10) -/

theorem calcStats_withStats (st : PlayState) (now : Int) (hidx : st.idx ≤ st.text.length)
    (hlen : st.typed.length = st.text.length) :
    calcStats st now = some (withStats st now) :=
  calcStats_eq st now hidx (by omega)

theorem redraw_ok (cfg : Config) (st : PlayState) (now : Int) (hidx : st.idx ≤ st.text.length)
    (hlen : st.typed.length = st.text.length) :
    ∃ st1, redraw cfg st now = some st1 ∧
      st1.text = st.text ∧ st1.typed = st.typed ∧ st1.idx = st.idx ∧
      st1.startTime = st.startTime := by
  apply redraw_some_of_some cfg st now now
  unfold redraw
  have hall : ((List.range st.text.length).all
      (fun i => st.text[i]? == some 10 || decide (st.idx ≤ i) || decide (i < st.typed.length)))
      = true := by
    rw [List.all_eq_true]
    intro i hi
    have : i < st.typed.length := by rw [hlen]; exact List.mem_range.1 hi
    simp [this]
  rw [if_pos hall]
  split
  · rw [calcStats_withStats st now hidx hlen]; simp
  · simp

theorem timedOut_iff (timeLimit : Int) (st : PlayState) (now : Int) :
    (timeLimit ≠ -1 ∧ st.startTime ≠ none ∧ timeLimit ≤ since st.startTime now)
      ↔ timedOut timeLimit st now := by
  unfold timedOut since
  cases h : st.startTime with
  | none => simp
  | some t0 => simp

/-- C10. On a tick (an event that is neither a key nor a resize), in a state
whose cursor is within the text: if a time limit is set (not -1), the clock
has started and the time passed since the start is at least the limit, `play`
returns with outcome `GoTypeComplete` and with the error count, the correct
count and the mistakes computed over the positions below the cursor, the
cursor being where it was; in every other case the loop goes on with the
cursor, the typed buffer, the text and the start time unchanged. So the tick
ends the session exactly when the limit has been reached. -/
theorem tick_timeout (cfg : Config) (timeLimit : Int) (st : PlayState) (inp : Input)
    (hev : inp.ev = Event.Tick) (hidx : st.idx ≤ st.text.length)
    (hlen : st.typed.length = st.text.length) :
    (timedOut timeLimit st inp.now →
      handleEvent cfg timeLimit st inp = some (Step.returned (withStats st inp.later)) ∧
      (withStats st inp.later).rc = GoTypeComplete ∧
      (withStats st inp.later).idx = st.idx ∧
      (withStats st inp.later).nerrs = countWrong st.text st.typed st.idx ∧
      (withStats st inp.later).ncorrect = countCorrect st.text st.typed st.idx ∧
      (withStats st inp.later).mistakes
        = specMistakes (st.text.take st.idx) (st.typed.take st.idx)) ∧
    (¬ timedOut timeLimit st inp.now →
      ∃ st1, handleEvent cfg timeLimit st inp = some (Step.running st1) ∧
        st1.idx = st.idx ∧ st1.typed = st.typed ∧ st1.text = st.text ∧
        st1.startTime = st.startTime) ∧
    ((∃ st1, handleEvent cfg timeLimit st inp = some (Step.returned st1))
      ↔ timedOut timeLimit st inp.now) := by
  have hyes : timedOut timeLimit st inp.now →
      handleEvent cfg timeLimit st inp = some (Step.returned (withStats st inp.later)) := by
    intro hto
    have hc := (timedOut_iff timeLimit st inp.now).2 hto
    simp only [handleEvent, hev, if_pos hc, calcStats_withStats st inp.later hidx hlen]
    rfl
  have hno : ¬ timedOut timeLimit st inp.now →
      ∃ st1, handleEvent cfg timeLimit st inp = some (Step.running st1) ∧
        st1.idx = st.idx ∧ st1.typed = st.typed ∧ st1.text = st.text ∧
        st1.startTime = st.startTime := by
    intro hto
    have hc : ¬ (timeLimit ≠ -1 ∧ st.startTime ≠ none ∧ timeLimit ≤ since st.startTime inp.now) :=
      fun h => hto ((timedOut_iff timeLimit st inp.now).1 h)
    obtain ⟨st1, h1, h2, h3, h4, h5⟩ := redraw_ok cfg st inp.later hidx hlen
    refine ⟨st1, ?_, h4, h3, h2, h5⟩
    simp only [handleEvent, hev, if_neg hc, h1]
    rfl
  refine ⟨fun hto => ⟨hyes hto, rfl, rfl, rfl, rfl, rfl⟩, hno, ?_⟩
  constructor
  · rintro ⟨st1, h1⟩
    by_contra hto
    obtain ⟨st2, h2, _⟩ := hno hto
    rw [h2] at h1
    simp at h1
  · intro hto
    exact ⟨_, hyes hto⟩

/-- A witness of `tick_timeout`: target "hello world", "hxl" typed, a limit of
five seconds and a tick seven seconds after the start: the session ends as
complete with one error, two correct characters and the mistake hel/hxl. -/
theorem tick_timeout_witness :
    handleEvent ⟨true, false, false, false⟩ 5000000000
        ⟨runes "hello world", [104, 120, 108, 0, 0, 0, 0, 0, 0, 0, 0], 3, some 0, 0, 0, 0, 0, []⟩
        ⟨Event.Tick, 7000000000, 7000000000, 7000000001⟩
      = some (Step.returned
          ⟨runes "hello world", [104, 120, 108, 0, 0, 0, 0, 0, 0, 0, 0], 3, some 0, 1, 2,
            GoTypeComplete, 7000000001, [⟨runes "hel", runes "hxl"⟩]⟩) := by
  have h := ((tick_timeout ⟨true, false, false, false⟩ 5000000000
    ⟨runes "hello world", [104, 120, 108, 0, 0, 0, 0, 0, 0, 0, 0], 3, some 0, 0, 0, 0, 0, []⟩
    ⟨Event.Tick, 7000000000, 7000000000, 7000000001⟩ rfl (by decide) (by decide)).1
    ⟨by decide, 0, rfl, by decide⟩).1
  rw [h]
  decide

/-! ## Mistakes of a word cut by the cursor (C8) -/

theorem entriesOf_append (A B : List (List (Rune × Rune))) :
    entriesOf (A ++ B) = entriesOf A ++ entriesOf B := by
  simp [entriesOf]

theorem any_zip_ne : ∀ (w t : List Rune), w.length = t.length → w ≠ t →
    (w.zip t).any (fun p => p.1 != p.2) = true := by
  intro w
  induction w with
  | nil =>
    intro t hlen hne
    cases t with
    | nil => exact absurd rfl hne
    | cons y ys => simp at hlen
  | cons x xs ih =>
    intro t hlen hne
    cases t with
    | nil => simp at hlen
    | cons y ys =>
      by_cases hxy : x = y
      · subst hxy
        have := ih ys (by simpa using hlen) (fun h => hne (by rw [h]))
        simp [this]
      · simp [hxy]

theorem entriesOf_word (w t : List Rune) (hlen : w.length = t.length) (hne : w ≠ t)
    (hsp : 32 ∉ w) :
    entriesOf ((w.zip t).splitOnP (fun p => p.1 == 32)) = [⟨w.map shown, t.map shown⟩] := by
  have hsingle : (w.zip t).splitOnP (fun p => p.1 == 32) = [w.zip t] := by
    apply List.splitOnP_eq_single
    intro p hp hp32
    simp at hp32
    exact hsp (hp32 ▸ (List.of_mem_zip hp).1)
  have hfst : (w.zip t).map (fun p => shown p.1) = w.map shown := by
    have := List.map_fst_zip w t (by omega)
    rw [← this, List.map_map]; simp [Function.comp_def, this]
  have hsnd : (w.zip t).map (fun p => shown p.2) = t.map shown := by
    have := List.map_snd_zip w t (by omega)
    rw [← this, List.map_map]; simp [Function.comp_def, this]
  simp [hsingle, entriesOf, List.filter, any_zip_ne w t hlen hne, hfst, hsnd]

/-- C8, as amended. When the statistics are computed with the cursor at or
inside a word (the text is `before ++ w1 ++ w2`, where `before` is empty or
ends with the space in front of the word, `w1` is the part of the word below
the cursor and `w2` everything from the cursor on), and the typed runes `t1`
at the positions of `w1` are not all equal to the target, the last mistake
entry has as its `Word` the target word cut at the cursor, `w1`, and as its
`Typed` the runes `t1` (the zero rune shown as an underscore): what lies at or
beyond the cursor, `w2`, appears in neither, and no placeholder stands for
it. The entries before it are those of the text before the word. -/
theorem calcStats_cut_word (st : PlayState) (now : Int)
    (before w1 w2 tbefore t1 t2 : List Rune)
    (htext : st.text = before ++ w1 ++ w2) (htyped : st.typed = tbefore ++ t1 ++ t2)
    (hb : before = [] ∨ ∃ p, before = p ++ [32])
    (hlb : tbefore.length = before.length) (hl1 : t1.length = w1.length)
    (hl2 : t2.length = w2.length)
    (hidx : st.idx = before.length + w1.length)
    (hsp : 32 ∉ w1) (hne : w1 ≠ t1) :
    ∃ st1, calcStats st now = some st1 ∧
      st1.mistakes = specMistakes before tbefore ++ [⟨w1.map shown, t1.map shown⟩] := by
  have hidx1 : st.idx ≤ st.text.length := by rw [htext, hidx]; simp
  have hlen : st.typed.length = st.text.length := by rw [htext, htyped]; simp; omega
  refine ⟨_, calcStats_eq st now hidx1 (by omega), ?_⟩
  have htake1 : st.text.take st.idx = before ++ w1 := by
    rw [htext, hidx, ← List.length_append, List.append_assoc (before) w1 w2,
      ← List.append_assoc, List.take_left']
    rfl
  have htake2 : st.typed.take st.idx = tbefore ++ t1 := by
    rw [htyped, hidx, ← hlb, ← hl1, ← List.length_append, List.take_left']
    rfl
  show specMistakes (st.text.take st.idx) (st.typed.take st.idx) = _
  rw [htake1, htake2, specMistakes_eq, specMistakes_eq, List.zip_append hlb.symm]
  rcases hb with hb | ⟨p, hp⟩
  · subst hb
    have : tbefore = [] := List.eq_nil_of_length_eq_zero (by simpa using hlb)
    subst this
    simp only [List.zip_nil_left, List.nil_append]
    rw [entriesOf_word w1 t1 hl1.symm hne hsp]
    simp [entriesOf]
  · subst hp
    obtain ⟨tp, x, htb⟩ : ∃ tp x, tbefore = tp ++ [x] := by
      cases h : tbefore.reverse with
      | nil =>
        have : tbefore = [] := by simpa using h
        subst this; simp at hlb
      | cons x r =>
        exact ⟨r.reverse, x, by
          have := congrArg List.reverse h
          simpa using this⟩
    subst htb
    have hlp : p.length = tp.length := by simp at hlb; omega
    rw [List.zip_append hlp]
    simp only [List.zip_cons_cons, List.zip_nil_left, List.append_assoc, List.singleton_append]
    rw [splitOnP_append_sep _ (32, x) (by simp) (w1.zip t1) (p.zip tp),
      splitOnP_append_sep _ (32, x) (by simp) [] (p.zip tp),
      entriesOf_append, entriesOf_append, entriesOf_word w1 t1 hl1.symm hne hsp]
    simp [entriesOf]

/-- A witness of `calcStats_cut_word`, the example of the specification:
target "hello world" with "helxo" typed and the cursor at 5 gives the one
mistake hello/helxo. -/
theorem calcStats_cut_word_witness :
    ∃ st1, calcStats
        ⟨runes "hello world", runes "helxo" ++ [0, 0, 0, 0, 0, 0], 5, some 0, 0, 0, 0, 0, []⟩ 9
        = some st1 ∧
      st1.mistakes = [⟨runes "hello", runes "helxo"⟩] := by
  obtain ⟨st1, h1, h2⟩ := calcStats_cut_word
    ⟨runes "hello world", runes "helxo" ++ [0, 0, 0, 0, 0, 0], 5, some 0, 0, 0, 0, 0, []⟩ 9
    [] (runes "hello") (runes " world") [] (runes "helxo") [0, 0, 0, 0, 0, 0]
    (by decide) (by decide) (Or.inl rfl) (by decide) (by decide) (by decide) (by decide)
    (by decide) (by decide)
  exact ⟨st1, h1, by rw [h2]; decide⟩

/-- C8 as stated fails: with target "hello world", a limit of five seconds
and "hxl" typed, the tick after seven seconds ends the session with the
cursor (3) inside the word "hello"; the mistake reported is hel/hxl, the
word cut at the cursor, and not hello/hxl__. -/
theorem calcStats_cut_word_counterexample :
    play ⟨true, false, false, false⟩ (runes "hello world") 5000000000 false 0
        [⟨Event.EventKey Key.KeyRune 104 0, 0, 0, 0⟩,
         ⟨Event.EventKey Key.KeyRune 120 0, 1, 1, 1⟩,
         ⟨Event.EventKey Key.KeyRune 108 0, 2, 2, 2⟩,
         ⟨Event.Tick, 7000000000, 7000000000, 7000000000⟩]
      = PlayOutcome.returned
          ⟨1, 2, GoTypeComplete, 7000000000, [⟨runes "hel", runes "hxl"⟩]⟩ [] ∧
    ([⟨runes "hel", runes "hxl"⟩] : List mistake) ≠ [⟨runes "hello", runes "hxl__"⟩] := by
  constructor <;> decide

/-! ## The loops of the rune case -/

theorem takeWhile_getElem? (p : Rune → Bool) : ∀ (l : List Rune) (j : Nat),
    (j < (l.takeWhile p).length → ∃ x, l[j]? = some x ∧ p x = true) ∧
    (j = (l.takeWhile p).length → ∀ y, l[j]? = some y → p y = false) := by
  intro l
  induction l with
  | nil => intro j; simp
  | cons c cs ih =>
    intro j
    by_cases hc : p c = true
    · simp only [List.takeWhile_cons, hc, if_true, List.length_cons]
      cases j with
      | zero => simp [hc]
      | succ k =>
        have := ih k
        simp only [List.getElem?_cons_succ, Nat.add_lt_add_iff_right, Nat.add_right_cancel_iff]
        exact this
    · simp only [List.takeWhile_cons, hc, if_false, List.length_nil, Bool.false_eq_true]
      constructor
      · intro h; omega
      · intro h y hy
        subst h
        simp at hy
        subst hy
        simpa using hc

theorem takeWhile_length_le (p : Rune → Bool) (l : List Rune) :
    (l.takeWhile p).length ≤ l.length := by
  induction l with
  | nil => simp
  | cons c cs ih =>
    by_cases hc : p c = true
    · simp [List.takeWhile_cons, hc]; exact ih
    · simp [List.takeWhile_cons, hc]

theorem skipWordLoop_go (c : Rune) (rest typed : List Rune) (i : Nat)
    (hc : c ≠ 32 ∧ c ≠ 10) (hi : i < typed.length) :
    skipWordLoop (c :: rest) typed i = skipWordLoop rest (typed.set i 0) (i + 1) := by
  simp [skipWordLoop, setRune, hc, hi]

theorem skipWordLoop_stop (c : Rune) (rest typed : List Rune) (i : Nat)
    (hc : ¬ (c ≠ 32 ∧ c ≠ 10)) :
    skipWordLoop (c :: rest) typed i = some (typed, i) := by
  simp only [skipWordLoop, if_neg hc]

theorem newlineLoop_go (rest typed : List Rune) (i : Nat) (hi : i < typed.length) :
    newlineLoop (10 :: rest) typed i = newlineLoop rest (typed.set i 10) (i + 1) := by
  simp [newlineLoop, setRune, hi]

theorem newlineLoop_stop (c : Rune) (rest typed : List Rune) (i : Nat) (hc : c ≠ 10) :
    newlineLoop (c :: rest) typed i = some (typed, i) := by
  simp only [newlineLoop, if_neg hc]

theorem isBlank_iff (c : Rune) : isBlank c = true ↔ (c = 32 ∨ c = 10) := by
  simp [isBlank]

theorem set_window (typed typed1 : List Rune) (i k : Nat) (v : Rune) (hi : i < typed.length)
    (h3 : ∀ j, typed1[j]? = if i + 1 ≤ j ∧ j < i + 1 + k then some v else (typed.set i v)[j]?) :
    ∀ j, typed1[j]? = if i ≤ j ∧ j < i + (k + 1) then some v else typed[j]? := by
  intro j
  rw [h3 j, List.getElem?_set]
  by_cases hj : i = j
  · subst hj
    rw [if_neg (by omega), if_pos rfl, if_pos hi, if_pos (by omega)]
  · by_cases hj2 : i + 1 ≤ j ∧ j < i + 1 + k
    · rw [if_pos hj2, if_pos (by omega)]
    · rw [if_neg hj2, if_neg hj, if_neg (by omega)]

theorem skipWordLoop_spec : ∀ (suf typed : List Rune) (i : Nat),
    i + suf.length ≤ typed.length →
    ∃ typed1, skipWordLoop suf typed i
        = some (typed1, i + (suf.takeWhile (fun x => !isBlank x)).length) ∧
      typed1.length = typed.length ∧
      ∀ j, typed1[j]? = if i ≤ j ∧ j < i + (suf.takeWhile (fun x => !isBlank x)).length
        then some 0 else typed[j]? := by
  intro suf
  induction suf with
  | nil =>
    intro typed i _
    exact ⟨typed, by simp [skipWordLoop], rfl, by intro j; rw [if_neg (by simp)]⟩
  | cons c rest ih =>
    intro typed i hlen
    simp only [List.length_cons] at hlen
    have hi : i < typed.length := by omega
    by_cases hc : c ≠ 32 ∧ c ≠ 10
    · have hnb : (!isBlank c) = true := by
        have : ¬ isBlank c = true := by rw [isBlank_iff]; intro h; rcases h with h | h
                                        · exact hc.1 h
                                        · exact hc.2 h
        simpa using this
      obtain ⟨typed1, h1, h2, h3⟩ := ih (typed.set i 0) (i + 1) (by rw [List.length_set]; omega)
      have hk : (List.takeWhile (fun x => !isBlank x) (c :: rest)).length
          = (List.takeWhile (fun x => !isBlank x) rest).length + 1 := by
        rw [List.takeWhile_cons, if_pos hnb]; rfl
      rw [hk]
      refine ⟨typed1, ?_, by rw [h2, List.length_set], set_window typed typed1 i _ 0 hi h3⟩
      rw [skipWordLoop_go c rest typed i hc hi, h1]
      congr 2
      omega
    · have hnb : ¬ ((!isBlank c) = true) := by
        have : isBlank c = true := by
          rw [isBlank_iff]
          by_cases h32 : c = 32
          · exact Or.inl h32
          · right; by_contra h10; exact hc ⟨h32, h10⟩
        simp [this]
      have hk : (List.takeWhile (fun x => !isBlank x) (c :: rest)).length = 0 := by
        rw [List.takeWhile_cons, if_neg hnb]; rfl
      rw [hk]
      exact ⟨typed, skipWordLoop_stop c rest typed i hc, rfl,
        by intro j; rw [if_neg (by omega)]⟩

theorem newlineLoop_spec : ∀ (suf typed : List Rune) (i : Nat),
    i + suf.length ≤ typed.length →
    ∃ typed1, newlineLoop suf typed i
        = some (typed1, i + (suf.takeWhile (fun x => x == 10)).length) ∧
      typed1.length = typed.length ∧
      ∀ j, typed1[j]? = if i ≤ j ∧ j < i + (suf.takeWhile (fun x => x == 10)).length
        then some 10 else typed[j]? := by
  intro suf
  induction suf with
  | nil =>
    intro typed i _
    exact ⟨typed, by simp [newlineLoop], rfl, by intro j; rw [if_neg (by simp)]⟩
  | cons c rest ih =>
    intro typed i hlen
    simp only [List.length_cons] at hlen
    have hi : i < typed.length := by omega
    by_cases hc : c = 10
    · subst hc
      obtain ⟨typed1, h1, h2, h3⟩ := ih (typed.set i 10) (i + 1) (by rw [List.length_set]; omega)
      have hk : (List.takeWhile (fun x => x == 10) (10 :: rest)).length
          = (List.takeWhile (fun x => x == 10) rest).length + 1 := by
        rw [List.takeWhile_cons, if_pos (by simp)]; rfl
      rw [hk]
      refine ⟨typed1, ?_, by rw [h2, List.length_set], set_window typed typed1 i _ 10 hi h3⟩
      rw [newlineLoop_go rest typed i hi, h1]
      congr 2
      omega
    · have hk : (List.takeWhile (fun x => x == 10) (c :: rest)).length = 0 := by
        rw [List.takeWhile_cons, if_neg (by simpa using hc)]; rfl
      rw [hk]
      exact ⟨typed, newlineLoop_stop c rest typed i hc, rfl,
        by intro j; rw [if_neg (by omega)]⟩

/-! ## A space key in skip-word mode (C6) -/

theorem boundaryFrom_le (text : List Rune) (c : Nat) (hc : c ≤ text.length) :
    boundaryFrom text c ≤ text.length := by
  unfold boundaryFrom
  have := takeWhile_length_le (fun x => !isBlank x) (text.drop c)
  rw [List.length_drop] at this
  omega

theorem boundaryFrom_before (text : List Rune) (c j : Nat) (h1 : c ≤ j)
    (h2 : j < boundaryFrom text c) :
    ∃ x, text[j]? = some x ∧ x ≠ 32 ∧ x ≠ 10 := by
  unfold boundaryFrom at h2
  obtain ⟨x, hx, hp⟩ := (takeWhile_getElem? (fun x => !isBlank x) (text.drop c) (j - c)).1
    (by omega)
  rw [List.getElem?_drop] at hx
  have hcj : c + (j - c) = j := by omega
  rw [hcj] at hx
  refine ⟨x, hx, ?_, ?_⟩
  · intro h; subst h; simp [isBlank] at hp
  · intro h; subst h; simp [isBlank] at hp

theorem boundaryFrom_at (text : List Rune) (c : Nat) (y : Rune)
    (h : text[boundaryFrom text c]? = some y) : y = 32 ∨ y = 10 := by
  unfold boundaryFrom at h
  have := (takeWhile_getElem? (fun x => !isBlank x) (text.drop c) _).2 rfl y
    (by rw [List.getElem?_drop]; exact h)
  have hb : isBlank y = true := by simpa using this
  exact (isBlank_iff y).1 hb

theorem newlinesFrom_le (text : List Rune) (j : Nat) (hj : j ≤ text.length) :
    j + newlinesFrom text j ≤ text.length := by
  unfold newlinesFrom
  have := takeWhile_length_le (fun x => x == 10) (text.drop j)
  rw [List.length_drop] at this
  omega

theorem newlinesFrom_within (text : List Rune) (a j : Nat) (h1 : a ≤ j)
    (h2 : j < a + newlinesFrom text a) : text[j]? = some 10 := by
  unfold newlinesFrom at h2
  obtain ⟨x, hx, hp⟩ := (takeWhile_getElem? (fun x => x == 10) (text.drop a) (j - a)).1
    (by omega)
  rw [List.getElem?_drop] at hx
  have haj : a + (j - a) = j := by omega
  rw [haj] at hx
  have : x = 10 := by simpa using hp
  rw [hx, this]

theorem finishRune_eq (st : PlayState) (later : Int) (hidx : st.idx ≤ st.text.length)
    (hlen : st.typed.length = st.text.length) :
    finishRune st later = some (if st.idx = st.text.length then
      Step.returned (withStats st later) else Step.running st) := by
  unfold finishRune
  split
  · rw [calcStats_withStats st later hidx hlen]; rfl
  · rfl

/-- What the rune case does with a space in skip-word mode, away from the
do-nothing case: the cursor `idx3` and the buffer `typed3` it leaves. -/
theorem keyRune_skip (cfg : Config) (st : PlayState) (later : Int)
    (hskip : cfg.SkipWord = true) (hidx : st.idx < st.text.length)
    (hlen : st.typed.length = st.text.length) (hnb : ¬ atWordBoundary st) :
    ∃ (typed3 : List Rune) (idx3 : Nat),
      keyRune cfg st 32 later
        = some (if idx3 = st.text.length then
            Step.returned (withStats { st with typed := typed3, idx := idx3 } later)
            else Step.running { st with typed := typed3, idx := idx3 }) ∧
      typed3.length = st.text.length ∧ idx3 ≤ st.text.length ∧
      idx3 = (if boundaryFrom st.text st.idx < st.text.length then
        boundaryFrom st.text st.idx + 1 + newlinesFrom st.text (boundaryFrom st.text st.idx + 1)
        else st.text.length) ∧
      (∀ j, st.idx ≤ j → j < boundaryFrom st.text st.idx → typed3[j]? = some 0) ∧
      (boundaryFrom st.text st.idx < st.text.length →
        typed3[boundaryFrom st.text st.idx]? = st.text[boundaryFrom st.text st.idx]?) ∧
      (∀ j, boundaryFrom st.text st.idx < j → j < idx3 →
        typed3[j]? = some 10 ∧ st.text[j]? = some 10) ∧
      (∀ j, j < st.idx → typed3[j]? = st.typed[j]?) := by
  have hble := boundaryFrom_le st.text st.idx (by omega)
  obtain ⟨typed1, h1, h1len, h1get⟩ := skipWordLoop_spec (st.text.drop st.idx) st.typed st.idx
    (by rw [List.length_drop]; omega)
  have hb : st.idx + (List.takeWhile (fun x => !isBlank x) (st.text.drop st.idx)).length
      = boundaryFrom st.text st.idx := rfl
  rw [hb] at h1 h1get
  generalize hbdef : boundaryFrom st.text st.idx = b at *
  have hcond : cfg.SkipWord = true ∧ (32 : Rune) = 32 := ⟨hskip, rfl⟩
  have hnb' : ¬ (0 < st.idx ∧ st.text[st.idx - 1]? = some 32 ∧ st.text[st.idx]? ≠ some 32) := hnb
  have hunfold : keyRune cfg st 32 later =
      (match (match st.text[b]? with
               | none => some (typed1, b)
               | some bc => (setRune typed1 b bc).map (fun t => (t, b + 1))) with
        | none => none
        | some (typed2, idx2) =>
          match newlineLoop (st.text.drop idx2) typed2 idx2 with
          | none => none
          | some (typed3, idx3) => finishRune { st with typed := typed3, idx := idx3 } later) := by
    unfold keyRune
    rw [if_pos hidx, if_pos hcond, if_neg hnb', h1]
  rw [hunfold]
  by_cases hbl : b < st.text.length
  · obtain ⟨bc, hbc⟩ : ∃ bc, st.text[b]? = some bc := ⟨st.text[b], List.getElem?_eq_getElem hbl⟩
    have hset : setRune typed1 b bc = some (typed1.set b bc) := by
      simp [setRune, h1len, hlen, hbl]
    obtain ⟨typed3, h3, h3len, h3get⟩ := newlineLoop_spec (st.text.drop (b + 1))
      (typed1.set b bc) (b + 1) (by rw [List.length_drop, List.length_set]; omega)
    have hn : b + 1 + (List.takeWhile (fun x => x == 10) (st.text.drop (b + 1))).length
        = b + 1 + newlinesFrom st.text (b + 1) := rfl
    rw [hn] at h3 h3get
    have hnle := newlinesFrom_le st.text (b + 1) (by omega)
    have h3len' : typed3.length = st.text.length := by
      rw [h3len, List.length_set, h1len, hlen]
    refine ⟨typed3, b + 1 + newlinesFrom st.text (b + 1), ?_, h3len', by omega, ?_, ?_, ?_, ?_, ?_⟩
    · simp only [hbc, hset, Option.map_some', h3]
      exact finishRune_eq _ later (by simpa using (by omega : b + 1 + newlinesFrom st.text (b + 1)
        ≤ st.text.length)) (by simpa using h3len')
    · rw [if_pos hbl]
    · intro j hj1 hj2
      rw [h3get j, if_neg (by omega), List.getElem?_set, if_neg (by omega), h1get j,
        if_pos ⟨hj1, hj2⟩]
    · intro _
      rw [h3get b, if_neg (by omega), List.getElem?_set, if_pos rfl,
        if_pos (by rw [h1len, hlen]; exact hbl), hbc]
    · intro j hj1 hj2
      rw [h3get j, if_pos ⟨by omega, hj2⟩]
      exact ⟨rfl, newlinesFrom_within st.text (b + 1) j (by omega) hj2⟩
    · intro j hj
      rw [h3get j, if_neg (by omega), List.getElem?_set, if_neg (by omega), h1get j,
        if_neg (by omega)]
  · have hbeq : b = st.text.length := by omega
    have hnone : st.text[b]? = none := by
      rw [List.getElem?_eq_none_iff]; omega
    have hdrop : st.text.drop b = [] := by
      rw [List.drop_eq_nil_iff]; omega
    refine ⟨typed1, st.text.length, ?_, by rw [h1len, hlen], le_refl _, ?_, ?_, ?_, ?_, ?_⟩
    · have hl1 : typed1.length = st.text.length := by rw [h1len, hlen]
      have hfin := finishRune_eq { st with typed := typed1, idx := st.text.length } later
        (le_refl _) hl1
      simp only [hnone, hdrop, newlineLoop]
      rw [hbeq, hfin]
      simp
    · rw [if_neg hbl]
    · intro j hj1 hj2
      rw [h1get j, if_pos ⟨hj1, hj2⟩]
    · intro h; exact absurd h hbl
    · intro j hj1 hj2; omega
    · intro j hj
      rw [h1get j, if_neg (by omega)]

theorem handleEvent_rune (cfg : Config) (timeLimit : Int) (st : PlayState) (inp : Input)
    (r : Rune) (mods : Nat) (hev : inp.ev = Event.EventKey Key.KeyRune r mods) :
    handleEvent cfg timeLimit st inp = keyRune cfg (started st inp.now) r inp.later := by
  simp [handleEvent, hev, started]

theorem started_fields (st : PlayState) (now : Int) :
    (started st now).text = st.text ∧ (started st now).typed = st.typed ∧
    (started st now).idx = st.idx := by
  unfold started
  split <;> exact ⟨rfl, rfl, rfl⟩

theorem countP_range_succ (p : Nat → Bool) (k : Nat) :
    (List.range (k + 1)).countP p = (List.range k).countP p + (if p k = true then 1 else 0) := by
  rw [List.range_succ, List.countP_append]
  simp [List.countP_cons]

theorem countP_range_none (p : Nat → Bool) (a : Nat) : ∀ n, a ≤ n →
    (∀ j, a ≤ j → j < n → p j = false) →
    (List.range n).countP p = (List.range a).countP p := by
  intro n
  induction n with
  | zero => intro ha _; have : a = 0 := by omega
            subst this; rfl
  | succ n ih =>
    intro ha hall
    by_cases han : a = n + 1
    · subst han; rfl
    · rw [countP_range_succ, ih (by omega) (fun j h1 h2 => hall j h1 (by omega)),
        hall n (by omega) (by omega)]
      simp

theorem countP_range_all (p : Nat → Bool) (a : Nat) : ∀ n, a ≤ n →
    (∀ j, a ≤ j → j < n → p j = true) →
    (List.range n).countP p = (List.range a).countP p + (n - a) := by
  intro n
  induction n with
  | zero => intro ha _; have : a = 0 := by omega
            subst this; rfl
  | succ n ih =>
    intro ha hall
    by_cases han : a = n + 1
    · subst han; simp
    · rw [countP_range_succ, ih (by omega) (fun j h1 h2 => hall j h1 (by omega)),
        hall n (by omega) (by omega)]
      simp; omega

/-- C6, as amended. With skip-word mode on, in a state with the cursor `c`
below the end of the text that is not the do-nothing case, a space key has
this effect, where `b` is the least index at or after `c` whose target is a
space or a newline (the length of the text if there is none): every position
from `c` up to `b` is unset in the typed buffer; if `b` is within the text,
the buffer holds the target at `b` and the cursor is just past `b` and past
the newlines directly after it; if `b` is the end of the text, the cursor is
the end of the text; the positions below `c` are untouched; the session ends
(with the statistics of the new state) exactly when the cursor has reached
the end. For a target without NUL runes the statistics of the new state count
every skipped position as incorrect, and the boundary position as correct
when it is a space; a boundary that is a newline is not counted at all. -/
theorem skip_word_effect (cfg : Config) (timeLimit : Int) (st : PlayState) (inp : Input)
    (mods : Nat) (hskip : cfg.SkipWord = true)
    (hev : inp.ev = Event.EventKey Key.KeyRune 32 mods)
    (hidx : st.idx < st.text.length) (hlen : st.typed.length = st.text.length)
    (hnb : ¬ atWordBoundary st) :
    ∃ st1 : PlayState,
      handleEvent cfg timeLimit st inp
        = some (if st1.idx = st.text.length then Step.returned (withStats st1 inp.later)
            else Step.running st1) ∧
      st1.text = st.text ∧
      (∀ j, st.idx ≤ j → j < boundaryFrom st.text st.idx → st1.typed[j]? = some 0) ∧
      (boundaryFrom st.text st.idx < st.text.length →
        st1.typed[boundaryFrom st.text st.idx]? = st.text[boundaryFrom st.text st.idx]?) ∧
      st1.idx = (if boundaryFrom st.text st.idx < st.text.length then
        boundaryFrom st.text st.idx + 1 + newlinesFrom st.text (boundaryFrom st.text st.idx + 1)
        else st.text.length) ∧
      (∀ j, j < st.idx → st1.typed[j]? = st.typed[j]?) ∧
      (0 ∉ st.text → ∀ t : Int,
        calcStats st1 t = some (withStats st1 t) ∧
        (withStats st1 t).nerrs
          = countWrong st.text st.typed st.idx + (boundaryFrom st.text st.idx - st.idx) ∧
        (withStats st1 t).ncorrect
          = countCorrect st.text st.typed st.idx
            + (if st.text[boundaryFrom st.text st.idx]? = some 32 then 1 else 0)) := by
  obtain ⟨hst, hsty, hsi⟩ := started_fields st inp.now
  have hnb' : ¬ atWordBoundary (started st inp.now) := by
    unfold atWordBoundary at hnb ⊢
    rw [hst, hsi]; exact hnb
  obtain ⟨typed3, idx3, hkey, h3len, h3le, h3idx, hzero, hbd, hnl, hpre⟩ :=
    keyRune_skip cfg (started st inp.now) inp.later hskip (by rw [hst, hsi]; exact hidx)
      (by rw [hst, hsty]; exact hlen) hnb'
  simp only [hst, hsi, hsty] at h3idx hzero hbd hnl h3len h3le hpre
  have hble := boundaryFrom_le st.text st.idx (by omega)
  have hbge : st.idx ≤ boundaryFrom st.text st.idx := by unfold boundaryFrom; omega
  generalize hbdef : boundaryFrom st.text st.idx = b at *
  refine ⟨{ started st inp.now with typed := typed3, idx := idx3 }, ?_, hst, hzero, hbd, h3idx,
    hpre, ?_⟩
  · rw [handleEvent_rune cfg timeLimit st inp 32 mods hev, hkey]
    simp only [hst]
  · intro hnul t
    have hb3 : b ≤ idx3 := by
      rw [h3idx]; split <;> omega
    refine ⟨calcStats_withStats _ t (by simpa [hst] using h3le) (by simpa [hst] using h3len),
      ?_, ?_⟩
    · show countWrong (started st inp.now).text typed3 idx3 = _
      rw [hst]
      unfold countWrong
      rw [countP_range_none _ b idx3 hb3, countP_range_all _ st.idx b hbge,
        countP_range_congr _ (fun i => st.text[i]? != some 10 && st.typed[i]? != st.text[i]?)
          st.idx]
      · intro i hi
        rw [hpre i hi]
      · intro j hj1 hj2
        obtain ⟨x, hx, hx32, hx10⟩ := boundaryFrom_before st.text st.idx j hj1 (by omega)
        have hx0 : x ≠ 0 := by
          intro h0; subst h0
          exact hnul (List.getElem?_mem hx)
        rw [hzero j hj1 hj2, hx]
        simp [hx10, Ne.symm hx0]
      · intro j hj1 hj2
        by_cases hjb : j = b
        · subst hjb
          have hbl : j < st.text.length := by omega
          rw [hbd hbl]
          simp
        · rw [(hnl j (by omega) hj2).1, (hnl j (by omega) hj2).2]
          simp
    · show countCorrect (started st inp.now).text typed3 idx3 = _
      rw [hst]
      unfold countCorrect
      by_cases hbl : b < st.text.length
      · have hidx3 : b + 1 ≤ idx3 := by rw [h3idx, if_pos hbl]; omega
        obtain ⟨y, hy⟩ : ∃ y, st.text[b]? = some y := ⟨st.text[b], List.getElem?_eq_getElem hbl⟩
        have hyb : y = 32 ∨ y = 10 := boundaryFrom_at st.text st.idx y (by rw [hbdef]; exact hy)
        rw [countP_range_none _ (b + 1) idx3 hidx3, countP_range_succ,
          countP_range_none _ st.idx b hbge,
          countP_range_congr _ (fun i => st.text[i]? != some 10 && st.typed[i]? == st.text[i]?)
            st.idx]
        · rw [hbd hbl, hy]
          rcases hyb with h | h <;> subst h <;> simp
        · intro i hi
          rw [hpre i hi]
        · intro j hj1 hj2
          obtain ⟨x, hx, hx32, hx10⟩ := boundaryFrom_before st.text st.idx j hj1 (by omega)
          have hx0 : x ≠ 0 := by
            intro h0; subst h0
            exact hnul (List.getElem?_mem hx)
          rw [hzero j hj1 hj2, hx]
          simp [Ne.symm hx0]
        · intro j hj1 hj2
          rw [(hnl j (by omega) hj2).1, (hnl j (by omega) hj2).2]
          simp
      · have hbeq : b = st.text.length := by omega
        have hi3 : idx3 = b := by rw [h3idx, if_neg hbl, hbeq]
        have hnone : st.text[b]? = none := by rw [List.getElem?_eq_none_iff]; omega
        rw [hi3, hnone, countP_range_none _ st.idx b hbge,
          countP_range_congr _ (fun i => st.text[i]? != some 10 && st.typed[i]? == st.text[i]?)
            st.idx]
        · simp
        · intro i hi
          rw [hpre i hi]
        · intro j hj1 hj2
          obtain ⟨x, hx, hx32, hx10⟩ := boundaryFrom_before st.text st.idx j hj1 (by omega)
          have hx0 : x ≠ 0 := by
            intro h0; subst h0
            exact hnul (List.getElem?_mem hx)
          rw [hzero j hj1 hj2, hx]
          simp [Ne.symm hx0]

/-- A witness of `skip_word_effect`: target "ab cd" with "a" typed; the space
key skips "b", takes the space at 2 as typed and leaves the cursor at 3; the
statistics then have one error (the skipped "b") and two correct positions
("a" and the space). -/
theorem skip_word_effect_witness :
    ∃ st1 : PlayState,
      handleEvent ⟨true, false, false, false⟩ (-1)
          ⟨runes "ab cd", [97, 0, 0, 0, 0], 1, some 0, 0, 0, 0, 0, []⟩
          ⟨Event.EventKey Key.KeyRune 32 0, 1, 1, 1⟩
        = some (if st1.idx = (runes "ab cd").length then Step.returned (withStats st1 1)
            else Step.running st1) ∧
      st1.idx = 3 ∧ (withStats st1 1).nerrs = 1 ∧ (withStats st1 1).ncorrect = 2 := by
  obtain ⟨st1, h1, _, _, _, h5, _, h7⟩ := skip_word_effect ⟨true, false, false, false⟩ (-1)
    ⟨runes "ab cd", [97, 0, 0, 0, 0], 1, some 0, 0, 0, 0, 0, []⟩
    ⟨Event.EventKey Key.KeyRune 32 0, 1, 1, 1⟩ 0 rfl rfl (by decide) (by decide)
    (by unfold atWordBoundary; decide)
  have h8 := h7 (by decide) 1
  refine ⟨st1, h1, ?_, ?_, ?_⟩
  · rw [h5]; decide
  · rw [h8.2.1]; decide
  · rw [h8.2.2]; decide

/-- C6 as stated fails in two places. (1) A boundary that is a newline is not
counted as correct: with target "ab\ncd" and the cursor at 0 the space key
skips "ab", the boundary is the newline at 2, the buffer holds the newline
there and the cursor goes to 3, but the statistics of the new state have no
correct position (and two errors). (2) When no space or newline follows, the
cursor is the end of the text and not one past it: with target "ab" and the
cursor at 1 the boundary is 2, the length of the text, and the session ends
with the cursor at 2. -/
theorem skip_word_effect_counterexample :
    (boundaryFrom (runes "ab\ncd") 0 = 2 ∧
      handleEvent ⟨true, false, false, false⟩ (-1)
          ⟨runes "ab\ncd", [0, 0, 0, 0, 0], 0, none, 0, 0, 0, 0, []⟩
          ⟨Event.EventKey Key.KeyRune 32 0, 1, 1, 1⟩
        = some (Step.running ⟨runes "ab\ncd", [0, 0, 10, 0, 0], 3, some 1, 0, 0, 0, 0, []⟩) ∧
      calcStats ⟨runes "ab\ncd", [0, 0, 10, 0, 0], 3, some 1, 0, 0, 0, 0, []⟩ 2
        = some ⟨runes "ab\ncd", [0, 0, 10, 0, 0], 3, some 1, 2, 0, GoTypeComplete, 1,
            [⟨[97, 98, 10], [95, 95, 10]⟩]⟩ ∧
      countCorrect (runes "ab\ncd") [0, 0, 10, 0, 0] 3
        ≠ countCorrect (runes "ab\ncd") [0, 0, 0, 0, 0] 0 + 1) ∧
    (boundaryFrom (runes "ab") 1 = 2 ∧ (runes "ab").length = 2 ∧
      handleEvent ⟨true, false, false, false⟩ (-1)
          ⟨runes "ab", [97, 0], 1, some 0, 0, 0, 0, 0, []⟩
          ⟨Event.EventKey Key.KeyRune 32 0, 1, 1, 1⟩
        = some (Step.returned ⟨runes "ab", [97, 0], 2, some 0, 1, 1, GoTypeComplete, 1,
            [⟨[97, 98], [97, 95]⟩]⟩) ∧
      (2 : Nat) ≠ boundaryFrom (runes "ab") 1 + 1) := by
  refine ⟨⟨by decide, by decide, by decide, by decide⟩, by decide, by decide, by decide,
    by decide⟩

/-! ## Typing the target exactly -/

theorem spent_zero (tr : Trace) : spent tr 0 = 0 := by
  cases tr <;> rfl

theorem inputsAt_zero (inputs : List Input) (tr : Trace) : inputsAt inputs tr 0 = inputs := by
  cases tr <;> rfl

theorem playedAs_nil (cfg : Config) (starts : Nat → Int) (segs : List segment) (first : Nat)
    (budget : Int) (inputs : List Input) :
    PlayedAs cfg starts segs first budget inputs [] :=
  ⟨Nat.zero_le _, fun k hk => absurd hk (Nat.not_lt_zero k)⟩

theorem playedAs_single (cfg : Config) (starts : Nat → Int) (seg : segment)
    (segs : List segment) (first : Nat) (budget : Int) (inputs : List Input)
    (r : PlayResult) (rest : List Input)
    (hplay : play cfg seg.Text budget (if first = 0 then false else true) (starts first) inputs
      = PlayOutcome.returned r rest) :
    PlayedAs cfg starts (seg :: segs) first budget inputs [(r, rest)] := by
  refine ⟨by simp, ?_⟩
  intro k hk
  have hk0 : k = 0 := by simpa using hk
  subst hk0
  refine ⟨seg, r, rest, by simp, by simp, ?_, fun h => absurd h (Nat.lt_irrefl 0), fun h => ?_⟩
  · simpa [spent] using hplay
  · simp at h

theorem playedAs_cons (cfg : Config) (starts : Nat → Int) (seg : segment)
    (segs : List segment) (first : Nat) (budget : Int) (inputs : List Input)
    (r : PlayResult) (rest : List Input) (tr : Trace)
    (hplay : play cfg seg.Text budget (if first = 0 then false else true) (starts first) inputs
      = PlayOutcome.returned r rest)
    (hrc : r.rc = GoTypeComplete) (hleft : 0 < budget - r.duration)
    (htr : PlayedAs cfg starts segs (first + 1) (budget - r.duration) rest tr) :
    PlayedAs cfg starts (seg :: segs) first budget inputs ((r, rest) :: tr) := by
  obtain ⟨hlen, hall⟩ := htr
  refine ⟨by simpa using hlen, ?_⟩
  intro k hk
  cases k with
  | zero =>
    refine ⟨seg, r, rest, by simp, by simp, ?_, fun h => absurd h (Nat.lt_irrefl 0), fun _ => ⟨hrc, ?_⟩⟩
    · simpa [spent] using hplay
    · show r.duration + spent tr 0 < budget
      rw [spent_zero]; omega
  | succ k =>
    obtain ⟨seg1, r1, rest1, h1, h2, h3, h4, h5⟩ := hall k (by simpa using hk)
    refine ⟨seg1, r1, rest1, by simpa using h1, by simpa using h2, ?_, fun _ => ?_, fun h => ?_⟩
    · have e1 : budget - spent ((r, rest) :: tr) (k + 1) = budget - r.duration - spent tr k := by
        show budget - (r.duration + spent tr k) = _
        omega
      have e2 : first + (k + 1) = first + 1 + k := by omega
      have e3 : (if first + (k + 1) = 0 then false else true)
          = (if first + 1 + k = 0 then false else true) := by rw [e2]
      rw [e1, e3, e2]
      exact h3
    · show 0 < budget - (r.duration + spent tr k)
      cases k with
      | zero => rw [spent_zero]; omega
      | succ j => have := h4 (Nat.succ_pos j); omega
    · have := h5 (by simpa using h)
      refine ⟨this.1, ?_⟩
      show r.duration + spent tr (k + 1) < budget
      omega

theorem getLast?_cons_of_ne_nil {α : Type} (x : α) (l : List α) (h : l ≠ []) :
    (x :: l).getLast? = l.getLast? := by
  cases l with
  | nil => exact absurd rfl h
  | cons y ys => exact List.getLast?_cons_cons

theorem StartTestLoop_go (cfg : Config) (timeout : Int) (starts : Nat → Int) (seg : segment)
    (segs : List segment) (idx : Nat) (timeLeft : Int) (acc : TestResult)
    (inputs : List Input) (r : PlayResult) (rest : List Input) (hT : timeout ≠ -1)
    (hplay : play cfg seg.Text timeLeft (if idx = 0 then false else true) (starts idx) inputs
      = PlayOutcome.returned r rest)
    (hleft : ¬ timeLeft - r.duration ≤ 0) (hrc : r.rc = GoTypeComplete) :
    StartTestLoop cfg timeout starts (seg :: segs) idx timeLeft acc inputs
      = StartTestLoop cfg timeout starts segs (idx + 1) (timeLeft - r.duration)
          (addResult acc r) rest := by
  simp only [StartTestLoop, hplay]
  rw [if_pos hT, if_neg hleft, if_neg (not_not.mpr hrc)]
  rfl

theorem StartTestLoop_spent (cfg : Config) (timeout : Int) (starts : Nat → Int) (seg : segment)
    (segs : List segment) (idx : Nat) (timeLeft : Int) (acc : TestResult)
    (inputs : List Input) (r : PlayResult) (rest : List Input) (hT : timeout ≠ -1)
    (hplay : play cfg seg.Text timeLeft (if idx = 0 then false else true) (starts idx) inputs
      = PlayOutcome.returned r rest)
    (hleft : timeLeft - r.duration ≤ 0) :
    StartTestLoop cfg timeout starts (seg :: segs) idx timeLeft acc inputs
      = TestOutcome.returned (addResult acc r) rest := by
  simp only [StartTestLoop, hplay]
  rw [if_pos hT, if_pos hleft]
  rfl

theorem StartTestLoop_pending (cfg : Config) (timeout : Int) (starts : Nat → Int)
    (seg : segment) (segs : List segment) (idx : Nat) (timeLeft : Int) (acc : TestResult)
    (inputs : List Input) (st : PlayState)
    (hplay : play cfg seg.Text timeLeft (if idx = 0 then false else true) (starts idx) inputs
      = PlayOutcome.waiting st) :
    StartTestLoop cfg timeout starts (seg :: segs) idx timeLeft acc inputs
      = TestOutcome.waiting st := by
  simp only [StartTestLoop, hplay]

theorem StartTestLoop_crash (cfg : Config) (timeout : Int) (starts : Nat → Int)
    (seg : segment) (segs : List segment) (idx : Nat) (timeLeft : Int) (acc : TestResult)
    (inputs : List Input)
    (hplay : play cfg seg.Text timeLeft (if idx = 0 then false else true) (starts idx) inputs
      = PlayOutcome.indexPanic) :
    StartTestLoop cfg timeout starts (seg :: segs) idx timeLeft acc inputs
      = TestOutcome.indexPanic := by
  simp only [StartTestLoop, hplay]

theorem inProgress_nil (cfg : Config) (starts : Nat → Int) (seg : segment)
    (segs : List segment) (first : Nat) (budget : Int) (inputs : List Input)
    (out : PlayOutcome)
    (hplay : play cfg seg.Text budget (if first = 0 then false else true) (starts first) inputs
      = out) :
    InProgress cfg starts (seg :: segs) first budget inputs [] out := by
  refine ⟨seg, by simp, ?_, fun r rest h => by simp at h⟩
  simpa [spent, inputsAt] using hplay

theorem inProgress_cons (cfg : Config) (starts : Nat → Int) (seg : segment)
    (segs : List segment) (first : Nat) (budget : Int) (inputs : List Input)
    (r : PlayResult) (rest : List Input) (tr : Trace) (out : PlayOutcome)
    (hrc : r.rc = GoTypeComplete) (hleft : 0 < budget - r.duration)
    (h : InProgress cfg starts segs (first + 1) (budget - r.duration) rest tr out) :
    InProgress cfg starts (seg :: segs) first budget inputs ((r, rest) :: tr) out := by
  obtain ⟨seg1, h1, h2, h3⟩ := h
  refine ⟨seg1, by simpa using h1, ?_, ?_⟩
  · have e1 : budget - spent ((r, rest) :: tr) ((r, rest) :: tr).length
        = budget - r.duration - spent tr tr.length := by
      show budget - (r.duration + spent tr tr.length) = _
      omega
    have e2 : first + ((r, rest) :: tr).length = first + 1 + tr.length := by
      simp only [List.length_cons]; omega
    have e3 : inputsAt inputs ((r, rest) :: tr) ((r, rest) :: tr).length
        = inputsAt rest tr tr.length := rfl
    rw [e1, e2, e3]
    exact h2
  · intro r1 rest1 hlast
    show r1.rc = GoTypeComplete ∧ r.duration + spent tr tr.length < budget
    cases tr with
    | nil =>
      simp only [List.getLast?_singleton, Option.some.injEq, Prod.mk.injEq] at hlast
      rw [← hlast.1]
      refine ⟨hrc, ?_⟩
      simp only [spent]; omega
    | cons y ys =>
      rw [List.getLast?_cons_cons] at hlast
      have := h3 r1 rest1 hlast
      exact ⟨this.1, by omega⟩

theorem StartTestLoop_trace (cfg : Config) (timeout : Int) (starts : Nat → Int)
    (hT : timeout ≠ -1) :
    ∀ (segs : List segment) (idx : Nat) (timeLeft : Int) (acc : TestResult)
      (inputs : List Input),
      ∃ tr : Trace, PlayedAs cfg starts segs idx timeLeft inputs tr ∧
        EndsAs cfg starts segs idx timeLeft inputs acc tr
          (StartTestLoop cfg timeout starts segs idx timeLeft acc inputs) := by
  intro segs
  induction segs with
  | nil =>
    intro idx timeLeft acc inputs
    refine ⟨[], playedAs_nil _ _ _ _ _ _, ?_⟩
    show _ ∧ _ ∧ _
    exact ⟨rfl, rfl, fun h => absurd h (Nat.lt_irrefl 0)⟩
  | cons seg segs ih =>
    intro idx timeLeft acc inputs
    cases hplay : play cfg seg.Text timeLeft (if idx = 0 then false else true) (starts idx)
        inputs with
    | indexPanic =>
      rw [StartTestLoop_crash cfg timeout starts seg segs idx timeLeft acc inputs hplay]
      exact ⟨[], playedAs_nil _ _ _ _ _ _, inProgress_nil _ _ _ _ _ _ _ _ hplay⟩
    | waiting st =>
      rw [StartTestLoop_pending cfg timeout starts seg segs idx timeLeft acc inputs st hplay]
      exact ⟨[], playedAs_nil _ _ _ _ _ _, inProgress_nil _ _ _ _ _ _ _ _ hplay⟩
    | returned r rest =>
      by_cases hleft : timeLeft - r.duration ≤ 0
      · rw [StartTestLoop_spent cfg timeout starts seg segs idx timeLeft acc inputs r rest hT
          hplay hleft]
        refine ⟨[(r, rest)], playedAs_single _ _ _ _ _ _ _ _ _ hplay, ?_⟩
        show _ ∧ _ ∧ _
        refine ⟨rfl, rfl, fun _ => ⟨r, rest, rfl, Or.inl ?_⟩⟩
        show timeLeft ≤ r.duration + 0
        omega
      · by_cases hrc : r.rc = GoTypeComplete
        · rw [StartTestLoop_go cfg timeout starts seg segs idx timeLeft acc inputs r rest hT
            hplay hleft hrc]
          obtain ⟨tr, hp, he⟩ := ih (idx + 1) (timeLeft - r.duration) (addResult acc r) rest
          refine ⟨(r, rest) :: tr,
            playedAs_cons _ _ _ _ _ _ _ _ _ _ hplay hrc (by omega) hp, ?_⟩
          generalize StartTestLoop cfg timeout starts segs (idx + 1) (timeLeft - r.duration)
            (addResult acc r) rest = out at he
          cases out with
          | indexPanic => exact inProgress_cons _ _ _ _ _ _ _ _ _ _ _ hrc (by omega) he
          | waiting st => exact inProgress_cons _ _ _ _ _ _ _ _ _ _ _ hrc (by omega) he
          | returned res rest2 =>
            obtain ⟨h1, h2, h3⟩ := he
            refine ⟨h1, h2, fun hlt => ?_⟩
            obtain ⟨r1, rest1, hlast, hend⟩ := h3 (by simpa using hlt)
            have hne : tr ≠ [] := by
              intro h0
              rw [h0] at hlast
              simp at hlast
            refine ⟨r1, rest1, by rw [getLast?_cons_of_ne_nil _ _ hne]; exact hlast, ?_⟩
            rcases hend with hend | hend
            · left
              show timeLeft ≤ r.duration + spent tr tr.length
              omega
            · exact Or.inr hend
        · rw [StartTestLoop_stop cfg timeout starts seg segs idx timeLeft acc inputs r rest
            hplay hrc]
          refine ⟨[(r, rest)], playedAs_single _ _ _ _ _ _ _ _ _ hplay, ?_⟩
          show _ ∧ _ ∧ _
          exact ⟨rfl, rfl, fun _ => ⟨r, rest, rfl, Or.inr hrc⟩⟩

theorem spent_length (tr : Trace) :
    spent tr tr.length = (tr.map (fun x => x.1.duration)).sum := by
  induction tr with
  | nil => rfl
  | cons x tr ih =>
    show x.1.duration + spent tr tr.length = _
    rw [ih, List.map_cons, List.sum_cons]

theorem foldl_addResult (tr : Trace) :
    ∀ acc : TestResult,
      (tr.foldl (fun a x => addResult a x.1) acc).numerrs
          = acc.numerrs + (tr.map (fun x => x.1.nerrs)).sum ∧
        (tr.foldl (fun a x => addResult a x.1) acc).numcorrect
          = acc.numcorrect + (tr.map (fun x => x.1.ncorrect)).sum ∧
        (tr.foldl (fun a x => addResult a x.1) acc).duration
          = acc.duration + (tr.map (fun x => x.1.duration)).sum ∧
        (tr.foldl (fun a x => addResult a x.1) acc).mistakes
          = acc.mistakes ++ (tr.map (fun x => x.1.mistakes)).flatten := by
  induction tr with
  | nil => intro acc; simp
  | cons x tr ih =>
    intro acc
    obtain ⟨h1, h2, h3, h4⟩ := ih (addResult acc x.1)
    simp only [List.foldl_cons, List.map_cons, List.sum_cons, List.flatten_cons]
    rw [h1, h2, h3, h4]
    simp only [addResult, List.append_assoc]
    refine ⟨by omega, by omega, by omega, trivial⟩

/-- C11. `StartTest` with a budget `T` other than -1, on any segments, inputs
and clock. There is a trace `tr` of the segments that were played to their
end, the first `tr.length` segments of the test in order, such that
(1) segment `k` was played with the time limit `T` minus the sum of the
durations of the segments `0..k-1`, on the inputs those left unread, and
returned what the trace records; that limit is positive for every `k > 0`;
and every segment followed by another one ended as complete with the summed
duration still below `T` (so no segment is played once the sum reaches `T`
or a segment ends otherwise);
(2) if `StartTest` returns, then the error count, the correct count and the
duration it returns are the sums, and the mistake list the concatenation in
segment order, of the results of the segments of the trace, and when a
segment of the test was not played, the last one played used up the budget
or did not end as complete; if `StartTest` does not return (the inputs run
out, or an index is out of range), the segment after the trace is the one in
progress, again with limit `T` minus the durations so far, and the one before
it ended as complete within the budget. -/
theorem StartTest_budget (cfg : Config) (text : List segment) (T : Int) (starts : Nat → Int)
    (inputs : List Input) (hT : T ≠ -1) :
    ∃ tr : Trace,
      PlayedAs cfg starts text 0 T inputs tr ∧
      EndsAs cfg starts text 0 T inputs ⟨0, 0, 0, 0, [], []⟩ tr
        (StartTest cfg text T starts inputs) ∧
      ∀ res rest, StartTest cfg text T starts inputs = TestOutcome.returned res rest →
        res.numerrs = (tr.map (fun x => x.1.nerrs)).sum ∧
        res.numcorrect = (tr.map (fun x => x.1.ncorrect)).sum ∧
        res.duration = (tr.map (fun x => x.1.duration)).sum ∧
        res.duration = spent tr tr.length ∧
        res.mistakes = (tr.map (fun x => x.1.mistakes)).flatten := by
  obtain ⟨tr, hp, he⟩ :=
    StartTestLoop_trace cfg T starts hT text 0 T ⟨0, 0, 0, 0, [], []⟩ inputs
  refine ⟨tr, hp, he, ?_⟩
  intro res rest hret
  have he1 : EndsAs cfg starts text 0 T inputs ⟨0, 0, 0, 0, [], []⟩ tr
      (TestOutcome.returned res rest) := by
    rw [← hret]; exact he
  obtain ⟨_, hres, _⟩ := he1
  obtain ⟨h1, h2, h3, h4⟩ := foldl_addResult tr ⟨0, 0, 0, 0, [], []⟩
  rw [hres, h1, h2, h3, h4, spent_length]
  simp

/-- A witness of `StartTest_budget`: a test of the two segments "a" and "b"
with a budget of five seconds, the user typing "a" after two seconds and "b"
after two more. -/
theorem StartTest_budget_witness :
    (5000000000 : Int) ≠ -1 ∧
    ∃ tr : Trace,
      PlayedAs ⟨false, false, false, false⟩ (fun _ => 0)
        [⟨runes "a", []⟩, ⟨runes "b", []⟩] 0 5000000000
        [⟨Event.EventKey Key.KeyRune 97 0, 0, 0, 2000000000⟩,
          ⟨Event.EventKey Key.KeyRune 98 0, 0, 0, 2000000000⟩] tr ∧
      EndsAs ⟨false, false, false, false⟩ (fun _ => 0)
        [⟨runes "a", []⟩, ⟨runes "b", []⟩] 0 5000000000
        [⟨Event.EventKey Key.KeyRune 97 0, 0, 0, 2000000000⟩,
          ⟨Event.EventKey Key.KeyRune 98 0, 0, 0, 2000000000⟩] ⟨0, 0, 0, 0, [], []⟩ tr
        (StartTest ⟨false, false, false, false⟩ [⟨runes "a", []⟩, ⟨runes "b", []⟩]
          5000000000 (fun _ => 0)
          [⟨Event.EventKey Key.KeyRune 97 0, 0, 0, 2000000000⟩,
            ⟨Event.EventKey Key.KeyRune 98 0, 0, 0, 2000000000⟩]) ∧
      ∀ res rest,
        StartTest ⟨false, false, false, false⟩ [⟨runes "a", []⟩, ⟨runes "b", []⟩]
          5000000000 (fun _ => 0)
          [⟨Event.EventKey Key.KeyRune 97 0, 0, 0, 2000000000⟩,
            ⟨Event.EventKey Key.KeyRune 98 0, 0, 0, 2000000000⟩]
          = TestOutcome.returned res rest →
        res.numerrs = (tr.map (fun x => x.1.nerrs)).sum ∧
        res.numcorrect = (tr.map (fun x => x.1.ncorrect)).sum ∧
        res.duration = (tr.map (fun x => x.1.duration)).sum ∧
        res.duration = spent tr tr.length ∧
        res.mistakes = (tr.map (fun x => x.1.mistakes)).flatten :=
  ⟨by decide,
    StartTest_budget ⟨false, false, false, false⟩ [⟨runes "a", []⟩, ⟨runes "b", []⟩]
      5000000000 (fun _ => 0)
      [⟨Event.EventKey Key.KeyRune 97 0, 0, 0, 2000000000⟩,
        ⟨Event.EventKey Key.KeyRune 98 0, 0, 0, 2000000000⟩] (by decide)⟩

/-! ## The index of the logic loop of `main` (C12) -/

/-- C12, the code at the failing input. The first test is the one segment
"ab cd" (already wrapped), on a screen 100 columns wide, no time budget; the
user presses the Left arrow before typing anything. `StartTest` returns with
`GoTypePrevious`, the iteration ends with `currentTestIdx = -1`, and the next
iteration, whatever it receives, indexes `tests` out of range: the index at
the head of that iteration is negative. -/
theorem mainLoop_previous_on_first_test :
    mainRun ⟨true, false, false, false⟩ (-1) 100 false
        [⟨some [⟨runes "ab cd", []⟩], fun _ => 0, [⟨Event.EventKey Key.KeyLeft 0 0, 0, 0, 0⟩],
          false⟩]
      = MainStep.next ⟨[some [⟨runes "ab cd", []⟩]], -1⟩ ∧
    ∀ rd : Round,
      mainRun ⟨true, false, false, false⟩ (-1) 100 false
          [⟨some [⟨runes "ab cd", []⟩], fun _ => 0,
            [⟨Event.EventKey Key.KeyLeft 0 0, 0, 0, 0⟩], false⟩, rd]
        = MainStep.indexPanic := by
  refine ⟨by decide, fun rd => ?_⟩
  have h : mainIteration ⟨true, false, false, false⟩ (-1) 100 false ⟨[], 0⟩
      ⟨some [⟨runes "ab cd", []⟩], fun _ => 0, [⟨Event.EventKey Key.KeyLeft 0 0, 0, 0, 0⟩],
        false⟩
      = MainStep.next ⟨[some [⟨runes "ab cd", []⟩]], -1⟩ := by decide
  simp only [mainRun, mainLoop, h]
  rfl

/-! ## A space on the first character of a word (C13) -/

/-- The do-nothing test of the case `tcell.KeyRune`: in skip-word mode, a
space typed while the cursor is past 0, on a character that is not a space,
the character before it being a space, leaves the state as it is and the
session running. -/
theorem keyRune_after_space (cfg : Config) (st : PlayState) (later : Int)
    (hskip : cfg.SkipWord = true) (hidx : st.idx < st.text.length) (hpos : 0 < st.idx)
    (hprev : st.text[st.idx - 1]? = some 32) (hcur : st.text[st.idx]? ≠ some 32) :
    keyRune cfg st 32 later = some (Step.running st) := by
  unfold keyRune
  rw [if_pos hidx, if_pos ⟨hskip, rfl⟩, if_pos ⟨hpos, hprev, hcur⟩]

/-- C13, amended. With skip-word mode enabled, a space typed while the cursor
stands behind a space on a character that is not a space (so on the first
character of a word that follows a space: the cursor is past 0 and within the
text, `text[cursor-1]` is a space and `text[cursor]` is not) does nothing:
the event switch lets the session go on, in a state with the same text,
typed buffer and cursor (only the clock is started if it was not). -/
theorem space_after_space_ignored (cfg : Config) (timeLimit : Int) (st : PlayState)
    (inp : Input) (mods : Nat) (hskip : cfg.SkipWord = true)
    (hev : inp.ev = Event.EventKey Key.KeyRune 32 mods)
    (hidx : st.idx < st.text.length) (hpos : 0 < st.idx)
    (hprev : st.text[st.idx - 1]? = some 32) (hcur : st.text[st.idx]? ≠ some 32) :
    ∃ st2, handleEvent cfg timeLimit st inp = some (Step.running st2) ∧
      st2.text = st.text ∧ st2.typed = st.typed ∧ st2.idx = st.idx := by
  obtain ⟨h1, h2, h3⟩ := started_fields st inp.now
  refine ⟨started st inp.now, ?_, h1, h2, h3⟩
  rw [handleEvent_rune cfg timeLimit st inp 32 mods hev]
  exact keyRune_after_space cfg (started st inp.now) inp.later hskip
    (by rw [h3, h1]; exact hidx) (by rw [h3]; exact hpos) (by rw [h3, h1]; exact hprev)
    (by rw [h3, h1]; exact hcur)

/-- A witness of `space_after_space_ignored`: target "ab cd", "ab " typed, the
cursor at 3 on the first character of "cd"; a second space is ignored. -/
theorem space_after_space_ignored_witness :
    (runes "ab cd")[3 - 1]? = some 32 ∧ (runes "ab cd")[3]? ≠ some 32 ∧
    ∃ st2, handleEvent ⟨true, false, false, false⟩ (-1)
        ⟨runes "ab cd", [97, 98, 32, 0, 0], 3, some 0, 0, 0, 0, 0, []⟩
        ⟨Event.EventKey Key.KeyRune 32 0, 1, 1, 1⟩ = some (Step.running st2) ∧
      st2.text = runes "ab cd" ∧ st2.typed = [97, 98, 32, 0, 0] ∧ st2.idx = 3 :=
  ⟨by decide, by decide,
    space_after_space_ignored ⟨true, false, false, false⟩ (-1)
      ⟨runes "ab cd", [97, 98, 32, 0, 0], 3, some 0, 0, 0, 0, 0, []⟩
      ⟨Event.EventKey Key.KeyRune 32 0, 1, 1, 1⟩ 0 rfl rfl (by decide) (by decide) (by decide)
      (by decide)⟩

set_option maxRecDepth 100000 in
/-- C13 as stated fails where the first character of a word does not follow a
space; skip-word mode on, no time limit.
(1) Target "ab cd", nothing typed, the cursor at 0 on the first character of
"ab": a space moves the cursor to 3 and blanks the two cells of "ab".
(2) The text "the quick brown fox jumps over" as `wrapText` wraps it on a
screen 28 columns wide: after the first line has been typed, its closing
space included, the cursor stands at 21 on the first character of "jumps", a
newline before it; a second space moves the cursor to 27, behind "jumps ".
(3) The text "ab cd" as `wrapText` wraps it on a screen 10 columns wide,
"ab \ncd": after "ab " the cursor stands at 4 on the first character of
"cd"; a second space skips "cd" and the session ends, with two errors. -/
theorem space_on_word_start_skips :
    (onWordStart (runes "ab cd") 0 ∧
      play ⟨true, false, false, false⟩ (runes "ab cd") (-1) false 0 (keysOf " ")
        = PlayOutcome.waiting
            ⟨runes "ab cd", [0, 0, 32, 0, 0], 3, some 0, 0, 0, 0, 0, []⟩) ∧
    (wrapText 28 (bytes "the quick brown fox jumps over") 80
        = runes "the quick brown fox \njumps over" ∧
      (play ⟨true, false, false, false⟩ (runes "the quick brown fox \njumps over") (-1) false 0
          (keysOf "the quick brown fox ")).cursor? = some 21 ∧
      onWordStart (runes "the quick brown fox \njumps over") 21 ∧
      (play ⟨true, false, false, false⟩ (runes "the quick brown fox \njumps over") (-1) false 0
          (keysOf "the quick brown fox  ")).cursor? = some 27) ∧
    (wrapText 10 (bytes "ab cd") 80 = runes "ab \ncd" ∧
      play ⟨true, false, false, false⟩ (runes "ab \ncd") (-1) false 0 (keysOf "ab ")
        = PlayOutcome.waiting
            ⟨runes "ab \ncd", [97, 98, 32, 10, 0, 0], 4, some 0, 0, 0, 0, 0, []⟩ ∧
      onWordStart (runes "ab \ncd") 4 ∧
      play ⟨true, false, false, false⟩ (runes "ab \ncd") (-1) false 0 (keysOf "ab  ")
        = PlayOutcome.returned ⟨2, 3, GoTypeComplete, 0, [⟨runes "\ncd", runes "\n__"⟩]⟩ []) := by
  refine ⟨⟨by decide, by decide⟩, ⟨by decide, by decide, by decide, by decide⟩,
    ⟨by decide, by decide, by decide, by decide⟩⟩

/-! ## The cursor invariant (C14) -/

end GoType
